import Mathlib

/-!
Shallow embedding of the Vercel serverless endpoint `api/recommend.js` of the
Mixing-desk app: URL normalization (`toDirectPdfUrl`), PDF text fetching with
whitespace normalization and a 12,000-character cap (`fetchPdfText`), the
trait-level clamping policy (`clamp10`), and the request handler.

Modelling conventions:
* JavaScript values that can flow out of `JSON.parse` are modelled by `JVal`
  (JSON has no `undefined`, `NaN` or `Infinity`); a missing property is
  modelled as `Option.none`.
* JS numbers are modelled as integer fractions `JNum` (numerator and
  positive denominator, not necessarily reduced), with the semantic value
  `jnVal : JNum → ℚ`; `Number(...)` coercion returns `Option JNum` with
  `none` standing for "not finite" (`NaN` or `±Infinity` — `clamp10`
  distinguishes neither, testing `Number.isFinite`).  String-to-number
  coercion follows the `StringNumericLiteral` grammar: whitespace trimming,
  empty string as 0, hex/octal/binary integer literals, and signed decimal
  literals with fraction and exponent; literals of magnitude `2^1024` or
  more overflow to `Infinity` (`none`), and exponents beyond ±2000 are
  folded to overflow/underflow without materializing the power of ten.
  Arrays coerce through `Array.prototype.toString` (comma-join): `[]` to 0,
  singletons like their element, two or more elements to `NaN` (the joining
  comma fits no numeric literal); plain objects stringify to
  `"[object Object]"`, which is `NaN`.
* External effects (the PDF fetch, the OpenAI call, `JSON.parse` of the
  model content) are oracles carried in a `World` structure.
-/

namespace Recommend

set_option maxRecDepth 10000

/-! ## JavaScript values -/

/-- A finite JS number, written as an integer fraction.  (Kept unreduced so
that every arithmetic step is kernel-computable; the rational value is
`jnVal`.)  All numbers constructed by the model have a positive denominator. -/
structure JNum where
  n : ℤ
  d : ℤ
deriving DecidableEq

/-- The rational value of a `JNum`. -/
def jnVal (x : JNum) : ℚ := (x.n : ℚ) / (x.d : ℚ)

/-- The number `k`. -/
def jnInt (k : ℤ) : JNum := ⟨k, 1⟩

/-- A JSON value as produced by `JSON.parse` (and hence any value reachable
in the model's `levels` field). -/
inductive JVal where
  | null
  | bool (b : Bool)
  | num (q : JNum)
  | str (s : String)
  | arr (elems : List JVal)
  | obj (fields : List (String × JVal))

compile_inductive% JVal

/-- JS object property read on an association list: later entries win, as in
an object literal / `JSON.parse` result with duplicate keys. -/
def jsGet (ps : List (String × JVal)) (k : String) : Option JVal :=
  ps.foldl (fun acc p => if p.1 = k then some p.2 else acc) none

/-- Property access `v?.k`: only objects have named properties here. -/
def jfield (v : JVal) (k : String) : Option JVal :=
  match v with
  | .obj ps => jsGet ps k
  | _ => none

/-- Array index access `v?.[i]`. -/
def jidx (v : JVal) (i : ℕ) : Option JVal :=
  match v with
  | .arr l => l[i]?
  | _ => none

/-- JS truthiness of a defined value. -/
def truthy (v : JVal) : Bool :=
  match v with
  | .null => false
  | .bool b => b
  | .num q => decide (q.n ≠ 0)
  | .str s => decide (s ≠ "")
  | .arr _ => true
  | .obj _ => true

/-- `x || d` on a possibly-undefined value. -/
def jOr (x : Option JVal) (d : JVal) : JVal :=
  match x with
  | some v => if truthy v then v else d
  | none => d

/-! ## Number coercion and `clamp10` -/

/-- The whitespace class used by JS (`\s`, restricted to the common ASCII
whitespace characters). -/
def isWs (c : Char) : Bool :=
  c == ' ' || c == '\t' || c == '\n' || c == '\r' || c == '\x0b' || c == '\x0c'

/-- Strip leading and trailing whitespace from a character list. -/
def trimWs (l : List Char) : List Char :=
  ((l.dropWhile isWs).reverse.dropWhile isWs).reverse

/-- JS `String.prototype.trim`. -/
def jsTrim (s : String) : String := String.mk (trimWs s.data)

/-- Numeric value of a digit string (most significant first). -/
def digitsVal (l : List Char) : ℕ :=
  l.foldl (fun a c => 10 * a + (c.toNat - '0'.toNat)) 0

/-- Is the value an IEEE-double-representable magnitude?  Doubles overflow
to `Infinity` at `2^1024`; `none` results model "not finite". -/
def mkFinite (x : JNum) : Option JNum :=
  if x.n.natAbs < 2 ^ 1024 * x.d.natAbs then some x else none

/-- Multiply by `10^e` (`e` bounded by the callers). -/
def applyExp (x : JNum) (e : ℤ) : JNum :=
  if 0 ≤ e then ⟨x.n * ((10 : ℕ) ^ e.toNat : ℕ), x.d⟩
  else ⟨x.n, x.d * ((10 : ℕ) ^ (-e).toNat : ℕ)⟩

/-- The optional exponent part of a decimal literal: empty, or
`e`/`E` followed by an optionally signed digit run consuming the rest. -/
def parseExp : List Char → Option ℤ
  | [] => some 0
  | c :: rest =>
    if c = 'e' ∨ c = 'E' then
      match rest with
      | '+' :: ds => if ds.isEmpty || !ds.all Char.isDigit then none else some (digitsVal ds)
      | '-' :: ds =>
        if ds.isEmpty || !ds.all Char.isDigit then none else some (-(digitsVal ds : ℤ))
      | ds => if ds.isEmpty || !ds.all Char.isDigit then none else some (digitsVal ds)
    else none

/-- Assemble mantissa, fraction length and exponent tail into a value.
Exponents beyond ±2000 are folded without materializing the power: a
nonzero mantissa with exponent above 2000 overflows to `Infinity` (`none`),
one below −2000 underflows to `0`, exactly as double conversion does. -/
def decWithExp (mant fracLen : ℕ) (rest : List Char) : Option JNum :=
  match parseExp rest with
  | none => none
  | some e =>
    if mant = 0 then some (jnInt 0)
    else if 2000 < e then none
    else if e < -2000 then some (jnInt 0)
    else mkFinite (applyExp ⟨(mant : ℤ), (((10 : ℕ) ^ fracLen : ℕ) : ℤ)⟩ e)

/-- Unsigned decimal literal: `digits [. digits] [exp]`, `digits. [exp]` or
`.digits [exp]`; anything else is `NaN` (`none`). -/
def decNum (l : List Char) : Option JNum :=
  let ip := l.takeWhile Char.isDigit
  let rest1 := l.dropWhile Char.isDigit
  match rest1 with
  | '.' :: rest2 =>
    let fp := rest2.takeWhile Char.isDigit
    let rest3 := rest2.dropWhile Char.isDigit
    if ip.isEmpty && fp.isEmpty then none
    else decWithExp (digitsVal ip * ((10 : ℕ) ^ fp.length : ℕ) + digitsVal fp) fp.length rest3
  | _ => if ip.isEmpty then none else decWithExp (digitsVal ip) 0 rest1

/-- Hexadecimal digit test. -/
def isHexDigit (c : Char) : Bool :=
  c.isDigit || ('a' ≤ c && c ≤ 'f') || ('A' ≤ c && c ≤ 'F')

/-- Octal digit test. -/
def isOctDigit (c : Char) : Bool := '0' ≤ c && c ≤ '7'

/-- Binary digit test. -/
def isBinDigit (c : Char) : Bool := c == '0' || c == '1'

/-- Value of a hex digit (also serves lower bases). -/
def hexDigitVal (c : Char) : ℕ :=
  if c.isDigit then c.toNat - 48 else if 'a' ≤ c then c.toNat - 87 else c.toNat - 55

/-- Value of a digit run in base `b`. -/
def radixVal (b : ℕ) (l : List Char) : ℕ :=
  l.foldl (fun a c => b * a + hexDigitVal c) 0

/-- The non-decimal integer literals of `Number(...)`: `0x`/`0X` hex,
`0o`/`0O` octal, `0b`/`0B` binary, unsigned, consuming the whole string. -/
def radixNum : List Char → Option JNum
  | '0' :: x :: ds =>
    if x = 'x' ∨ x = 'X' then
      if ds.isEmpty || !ds.all isHexDigit then none else mkFinite (jnInt (radixVal 16 ds))
    else if x = 'o' ∨ x = 'O' then
      if ds.isEmpty || !ds.all isOctDigit then none else mkFinite (jnInt (radixVal 8 ds))
    else if x = 'b' ∨ x = 'B' then
      if ds.isEmpty || !ds.all isBinDigit then none else mkFinite (jnInt (radixVal 2 ds))
    else none
  | _ => none

/-- `Number(s)` for a string, following the `StringNumericLiteral` grammar:
trim whitespace; empty means `0`; a hex/octal/binary literal (unsigned); or
an optionally signed decimal literal with optional fraction and exponent.
Everything else — including `"Infinity"`, whose value is not finite — is
`none`, which models "not finite" (`NaN` or `±Infinity`); `clamp10` treats
both the same way, via `Number.isFinite`. -/
def jsStrToNum (s : String) : Option JNum :=
  let l := trimWs s.data
  if l.isEmpty then some (jnInt 0)
  else
    match radixNum l with
    | some q => some q
    | none =>
      match l with
      | '-' :: r => (decNum r).map (fun q => ⟨-q.n, q.d⟩)
      | '+' :: r => decNum r
      | _ => decNum l

/-- `Number(arr)` coerces an array through `Array.prototype.toString`, the
comma-join of its elements' string forms.  An empty array joins to `""`
(value 0); an array of two or more elements always joins to a string
containing a literal comma, which no numeric literal contains (`NaN`); a
singleton joins to its element's string form, so it coerces like the
element itself: `null` joins as `""` (0), a number round-trips through its
string representation to itself, a string is itself, booleans join as
`"true"`/`"false"` (`NaN`), objects as `"[object Object]"` (`NaN`), and a
nested array joins to the same string the inner array would, so it coerces
like the inner array.  The fuel is `sizeOf` of the list; each unwrapping
of a singleton nesting strictly shrinks it. -/
def arrToNumAux : ℕ → List JVal → Option JNum
  | 0, _ => none
  | _ + 1, [] => some (jnInt 0)
  | fuel + 1, [v] =>
    match v with
    | .null => some (jnInt 0)
    | .bool _ => none
    | .num q => some q
    | .str s => jsStrToNum s
    | .arr inner => arrToNumAux fuel inner
    | .obj _ => none
  | _ + 1, _ :: _ :: _ => none

/-- `Number(arr)` for an array's element list. -/
def arrToNum (l : List JVal) : Option JNum := arrToNumAux (sizeOf l) l

/-- `Number(x)` for a possibly-undefined JS value; `none` stands for "not
finite" (`Number(undefined)`, non-numeric strings, plain objects, arrays
joining to non-numeric strings, overflowing literals). -/
def toNumber (x : Option JVal) : Option JNum :=
  match x with
  | none => none
  | some .null => some (jnInt 0)
  | some (.bool b) => some (if b then jnInt 1 else jnInt 0)
  | some (.num q) => some q
  | some (.str s) => jsStrToNum s
  | some (.arr l) => arrToNum l
  | some (.obj _) => none

/-- `Math.round`: round to nearest, ties toward positive infinity.  For a
fraction `n / d` with `d > 0` this is `⌊n / d + 1 / 2⌋ = ⌊(2n + d) / 2d⌋`,
computed with integer floor division. -/
def jsRound (q : JNum) : ℤ := (2 * q.n + q.d).fdiv (2 * q.d)

/-- `Math.max` on integers. -/
def jsMax (a b : ℤ) : ℤ := if a ≤ b then b else a

/-- `Math.min` on integers. -/
def jsMin (a b : ℤ) : ℤ := if a ≤ b then a else b

/-- `clamp10` from `api/recommend.js`:
`const v = Math.round(Number(n)); return Number.isFinite(v) ? Math.max(0, Math.min(10, v)) : 5;`
Since JSON-derived values are never `±Infinity`, `v` is finite exactly when
the coercion did not produce `NaN`. -/
def clamp10 (n : Option JVal) : ℤ :=
  match toNumber n with
  | some q => jsMax 0 (jsMin 10 (jsRound q))
  | none => 5

/-- `jsRound` agrees with rounding the rational value half-up, whenever the
denominator is positive (as it is for every number the model constructs). -/
theorem jsRound_eq_floor (q : JNum) (h : 0 < q.d) :
    jsRound q = ⌊jnVal q + 1 / 2⌋ := by
  have hb : (0 : ℤ) < 2 * q.d := by omega
  have hcast : (((2 * q.d).toNat : ℕ) : ℚ) = ((2 * q.d : ℤ) : ℚ) := by
    rw [show (((2 * q.d).toNat : ℕ) : ℚ) = (((2 * q.d).toNat : ℤ) : ℚ) by push_cast; ring,
      Int.toNat_of_nonneg hb.le]
  have hq : jnVal q + 1 / 2 = ((2 * q.n + q.d : ℤ) : ℚ) / (((2 * q.d).toNat : ℕ) : ℚ) := by
    have hd : ((q.d : ℚ)) ≠ 0 := by
      have : (0 : ℚ) < (q.d : ℚ) := by exact_mod_cast h
      exact this.ne'
    rw [hcast]
    field_simp [jnVal]
    ring
  rw [hq, Rat.floor_intCast_div_natCast, jsRound, Int.fdiv_eq_ediv _ hb.le,
    Int.toNat_of_nonneg hb.le]

/-- The fixed trait vocabulary, in declaration order. -/
def traits : List String :=
  ["ruthlessness", "fearlessness", "impulsivity", "selfConfidence", "focus",
   "coolness", "toughness", "charm", "charisma", "reducedEmpathy", "lackConscience"]

/-- The response-finalization loop
`for (const k of traits) levels[k] = clamp10(rawLevels[k]);`
applied to the (possibly non-object) value of `content?.levels || {}`. -/
def finalizeLevels (levelsV : JVal) : List (String × ℤ) :=
  traits.map (fun k => (k, clamp10 (jfield levelsV k)))

theorem clamp10_mem_range (n : Option JVal) : 0 ≤ clamp10 n ∧ clamp10 n ≤ 10 := by
  unfold clamp10
  cases toNumber n with
  | none => exact ⟨by norm_num, by norm_num⟩
  | some q =>
    simp only [jsMax, jsMin]
    split_ifs <;> omega

theorem finalizeLevels_keys (v : JVal) : (finalizeLevels v).map Prod.fst = traits := by
  simp [finalizeLevels, List.map_map, Function.comp_def]

theorem finalizeLevels_values (v : JVal) :
    ∀ p ∈ finalizeLevels v, 0 ≤ p.2 ∧ p.2 ≤ 10 := by
  intro p hp
  unfold finalizeLevels at hp
  simp only [List.mem_map] at hp
  obtain ⟨k, _, rfl⟩ := hp
  exact clamp10_mem_range _

/-- The mocked `levels` object of the round-trip scenario:
`{ruthlessness: 11.7, focus: "3", unknownKey: 9}`. -/
def mockLevels : JVal :=
  .obj [("ruthlessness", .num ⟨117, 10⟩), ("focus", .str "3"), ("unknownKey", .num (jnInt 9))]

/-- Claim C2: the clamp policy rounds via numeric coercion and substitutes
the neutral default 5 only when the coerced result is not finite; finalizing
a model response with levels `{ruthlessness: 11.7, focus: "3", unknownKey: 9}`
yields `ruthlessness = 10`, `focus = 3` (the numeric string is coerced), all
other trait keys default to 5, and `unknownKey` is absent from the output. -/
theorem clamp_policy_roundtrip :
    finalizeLevels mockLevels =
      [("ruthlessness", 10), ("fearlessness", 5), ("impulsivity", 5), ("selfConfidence", 5),
       ("focus", 3), ("coolness", 5), ("toughness", 5), ("charm", 5), ("charisma", 5),
       ("reducedEmpathy", 5), ("lackConscience", 5)]
    ∧ "unknownKey" ∉ (finalizeLevels mockLevels).map Prod.fst := by
  constructor
  · decide
  · decide

/-- Claim C3, counterexample: the claim says a raw value that is `null` (an
instance of "missing or not numeric") is substituted by the neutral default 5,
but `Number(null) = 0` is finite, so `clamp10(null) = 0`, not 5.  Concretely a
model response with `levels: {focus: null}` finalizes `focus` to 0. -/
theorem clamp_null_counterexample :
    clamp10 (some JVal.null) = 0 ∧ clamp10 (some JVal.null) ≠ 5 ∧
    (finalizeLevels (.obj [("focus", JVal.null)])).lookup "focus" = some 0 := by
  refine ⟨by decide, by decide, by decide⟩

/-- A singleton array around a number coerces to that number, for every
number: the fuel `sizeOf [JVal.num q]` is a successor, and one step of
`arrToNumAux` answers. -/
theorem arrToNum_singleton_num (q : JNum) : arrToNum [JVal.num q] = some q := by
  have hpos : 0 < sizeOf [JVal.num q] := by
    rw [List.cons.sizeOf_spec]
    omega
  obtain ⟨k, hk⟩ : ∃ k, sizeOf [JVal.num q] = k + 1 :=
    ⟨sizeOf [JVal.num q] - 1, by omega⟩
  unfold arrToNum
  rw [hk]
  rfl

/-- Claim C3, amended: for every fixed TraitKey, in declaration order, the
finalizer reads the raw value from the `levels` field, rounds it via JS
numeric coercion (`Math.round` of `Number`) and clamps it into [0,10]; the
neutral default 5 is substituted exactly when the coercion is not finite —
a missing key, a non-numeric string, a plain object, a multi-element array.
`null` coerces to 0, booleans to 0/1, every numeric string (including
exponent and hex forms: `"3"` to 3, `"1e1"` to 10, `"0x10"` to 16) to its
numeric value, and arrays through their comma-joined string: `[]` to 0,
`[q]` to `q` for every number `q`, two or more elements to `NaN` and hence
the default 5. -/
theorem clamp_default_policy (levelsV : JVal) (x : Option JVal)
    (hx : toNumber x = none) :
    (finalizeLevels levelsV).map Prod.fst = traits
    ∧ (∀ p ∈ finalizeLevels levelsV, p.2 = clamp10 (jfield levelsV p.1))
    ∧ clamp10 x = 5
    ∧ clamp10 none = 5
    ∧ (∀ q : JNum, clamp10 (some (.num q)) = jsMax 0 (jsMin 10 (jsRound q)))
    ∧ (∀ (s : String) (q : JNum), jsStrToNum s = some q →
        clamp10 (some (.str s)) = jsMax 0 (jsMin 10 (jsRound q)))
    ∧ (∀ q : JNum, toNumber (some (.arr [.num q])) = some q)
    ∧ clamp10 (some JVal.null) = 0
    ∧ clamp10 (some (.bool false)) = 0
    ∧ clamp10 (some (.bool true)) = 1
    ∧ clamp10 (some (.str "3")) = 3
    ∧ jsStrToNum "1e1" = some (jnInt 10) ∧ clamp10 (some (.str "1e1")) = 10
    ∧ jsStrToNum "0x10" = some (jnInt 16) ∧ clamp10 (some (.str "0x10")) = 10
    ∧ toNumber (some (.arr [])) = some (jnInt 0) ∧ clamp10 (some (.arr [])) = 0
    ∧ clamp10 (some (.arr [.num (jnInt 7)])) = 7
    ∧ toNumber (some (.arr [.num (jnInt 1), .num (jnInt 2)])) = none
    ∧ clamp10 (some (.arr [.num (jnInt 1), .num (jnInt 2)])) = 5
    ∧ clamp10 (some (.obj [])) = 5 := by
  refine ⟨finalizeLevels_keys _, ?_, ?_, by decide, fun q => rfl, ?_,
    fun q => arrToNum_singleton_num q, by decide, by decide, by decide, by decide,
    by decide, by decide, by decide, by decide, by decide, by decide, by decide,
    by decide, by decide, by decide⟩
  · intro p hp
    unfold finalizeLevels at hp
    simp only [List.mem_map] at hp
    obtain ⟨k, _, rfl⟩ := hp
    rfl
  · unfold clamp10
    rw [hx]
  · intro s q h
    unfold clamp10
    show (match jsStrToNum s with
      | some q => jsMax 0 (jsMin 10 (jsRound q))
      | none => (5 : ℤ)) = jsMax 0 (jsMin 10 (jsRound q))
    rw [h]

/-- Witness for `clamp_default_policy` at a concrete non-numeric value,
exercising the quantified string and array conjuncts at `"1e1"` and `[7]`. -/
theorem clamp_default_policy_witness :
    (finalizeLevels (.obj [])).map Prod.fst = traits
    ∧ clamp10 (some (.str "oops")) = 5
    ∧ clamp10 (some (.str "1e1")) = jsMax 0 (jsMin 10 (jsRound (jnInt 10)))
    ∧ toNumber (some (.arr [.num (jnInt 7)])) = some (jnInt 7) := by
  have h := clamp_default_policy (.obj []) (some (.str "oops")) (by decide)
  exact ⟨h.1, h.2.2.1, h.2.2.2.2.2.1 "1e1" (jnInt 10) (by decide),
    h.2.2.2.2.2.2.1 (jnInt 7)⟩

/-! ## URL model

`toDirectPdfUrl` relies on the WHATWG `URL` class.  The model below covers
the fragment of `URL` the function exercises: scheme, host (authority),
path, query and fragment are split syntactically; `searchParams.set`/`has`
and re-serialization are modelled on raw key/value lists.  Out of scope:
percent-encoding normalization, host lower-casing/punycode, userinfo and
port validation, and dot-segment removal — none of which the rewrite rules
depend on.  A string the model fails to parse makes `toDirectPdfUrl` return
its input unchanged, exactly as a `new URL(...)` throw does in the source. -/

/-- JS `String.prototype.includes`: `needle` occurs contiguously in `hay`. -/
def listContains (hay needle : List Char) : Bool :=
  match hay with
  | [] => needle.isEmpty
  | c :: t => needle.isPrefixOf (c :: t) || listContains t needle

/-- Characters legal in a URL scheme. -/
def isSchemeChar (c : Char) : Bool :=
  c.isAlpha || c.isDigit || c == '+' || c == '-' || c == '.'

/-- A scheme is a letter followed by scheme characters. -/
def schemeOk (l : List Char) : Bool :=
  match l with
  | [] => false
  | c :: _ => c.isAlpha && l.all isSchemeChar

/-- The authority (host) part extends to the first `/`, `?` or `#`. -/
def notHostDelim (c : Char) : Bool := !(c == '/' || c == '?' || c == '#')

/-- The path part extends to the first `?` or `#`. -/
def notPathDelim (c : Char) : Bool := !(c == '?' || c == '#')

/-- A parsed URL. -/
structure URLRec where
  scheme : List Char
  host : List Char
  path : List Char
  query : Option (List Char)
  frag : Option (List Char)
deriving DecidableEq

/-- Split off a leading `#` to recover the fragment, if any. -/
def fragOf (l : List Char) : Option (List Char) :=
  match l with
  | '#' :: f => some f
  | _ => none

/-- Parse `scheme://host[path][?query][#fragment]`; `none` models a
`new URL(...)` throw.  An empty path serializes back as `/`, as in WHATWG. -/
def parseChars (l : List Char) : Option URLRec :=
  let scheme := l.takeWhile (fun c => c != ':')
  if schemeOk scheme then
    match l.dropWhile (fun c => c != ':') with
    | ':' :: '/' :: '/' :: rest2 =>
      let host := rest2.takeWhile notHostDelim
      if host.isEmpty then none
      else
        let rest3 := rest2.dropWhile notHostDelim
        let path0 := rest3.takeWhile notPathDelim
        let path := if path0.isEmpty then ['/'] else path0
        match rest3.dropWhile notPathDelim with
        | '?' :: qf =>
          some ⟨scheme, host, path, some (qf.takeWhile (fun c => c != '#')),
                fragOf (qf.dropWhile (fun c => c != '#'))⟩
        | '#' :: f => some ⟨scheme, host, path, none, some f⟩
        | _ => some ⟨scheme, host, path, none, none⟩
    | _ => none
  else none

/-- `URL.prototype.toString` for the modelled fragment. -/
def render (u : URLRec) : List Char :=
  u.scheme ++ (':' :: '/' :: '/' :: (u.host ++ u.path))
    ++ (match u.query with | some q => '?' :: q | none => [])
    ++ (match u.frag with | some f => '#' :: f | none => [])

/-- Split a raw query on `&`. -/
def splitAmp (l : List Char) : List (List Char) :=
  match l with
  | [] => [[]]
  | c :: t =>
    if c = '&' then [] :: splitAmp t
    else
      match splitAmp t with
      | [] => [[c]]
      | h :: r => (c :: h) :: r

/-- Drop one leading `=`; a chunk without `=` has the empty value. -/
def chopEq (l : List Char) : List Char :=
  match l with
  | '=' :: v => v
  | _ => []

/-- `URLSearchParams` of a raw query: chunks between `&` (empty chunks are
skipped), each split at its first `=`. -/
def parseParams (q : List Char) : List (List Char × List Char) :=
  ((splitAmp q).filter (fun c => !c.isEmpty)).map
    (fun chunk => (chunk.takeWhile (fun c => c != '='), chopEq (chunk.dropWhile (fun c => c != '='))))

/-- Serialize search params back to a raw query. -/
def renderParams (ps : List (List Char × List Char)) : List Char :=
  match ps with
  | [] => []
  | [p] => p.1 ++ ('=' :: p.2)
  | p :: rest => p.1 ++ ('=' :: p.2) ++ ('&' :: renderParams rest)

/-- Remove every entry with key `k`. -/
def eraseP (ps : List (List Char × List Char)) (k : List Char) : List (List Char × List Char) :=
  ps.filter (fun p => !(p.1 == k))

/-- `URLSearchParams.set`: replace the first entry with key `k` in place,
drop later duplicates; append if absent. -/
def setP (ps : List (List Char × List Char)) (k v : List Char) : List (List Char × List Char) :=
  match ps with
  | [] => [(k, v)]
  | (k', v') :: rest => if k' == k then (k, v) :: eraseP rest k else (k', v') :: setP rest k v

/-- First value bound to key `k`. -/
def getP (ps : List (List Char × List Char)) (k : List Char) : Option (List Char) :=
  match ps with
  | [] => none
  | (k', v') :: rest => if k' == k then some v' else getP rest k

/-- `URLSearchParams.has`. -/
def hasP (ps : List (List Char × List Char)) (k : List Char) : Bool :=
  (getP ps k).isSome

/-- The regex `/\/d\/([^\/]+)/` on the pathname: the first position where
`/d/` is followed by at least one non-`/` character; the capture is the
maximal run of non-`/` characters there.  When the whole pattern fails at a
position the scan advances one character, as a regex engine does. -/
def driveIdAux : ℕ → List Char → Option (List Char)
  | 0, _ => none
  | _ + 1, [] => none
  | fuel + 1, c :: rest =>
    if (c :: rest).take 3 = ['/', 'd', '/'] then
      let found := ((c :: rest).drop 3).takeWhile (fun x => x != '/')
      if found.isEmpty then driveIdAux fuel rest else some found
    else driveIdAux fuel rest

/-- Capture of `pathname.match(/\/d\/([^\/]+)/)`, if any. -/
def driveId (path : List Char) : Option (List Char) :=
  driveIdAux path.length path

/-- `u.searchParams.set(k, v)` including its effect on serialization. -/
def setQueryParam (u : URLRec) (k v : List Char) : URLRec :=
  { u with query := some (renderParams (setP (parseParams (u.query.getD [])) k v)) }

/-- `u.hostname.includes(s)`. -/
def hostIncludes (u : URLRec) (s : String) : Bool :=
  listContains u.host s.data

/-- The Google Drive rewrite target
`` `https://drive.google.com/uc?export=download&id=${id}` ``. -/
def driveRewrite (capture : List Char) : List Char :=
  "https://drive.google.com/uc?export=download&id=".data ++ capture

/-- `toDirectPdfUrl` from `api/recommend.js`: empty input maps to the empty
string; on a parse failure the input is returned unchanged; otherwise the
Drive, Dropbox and OneDrive rules are tried in order and the first that
fires rewrites, else the input is returned verbatim. -/
def toDirectPdfUrl (url : String) : String :=
  if url = "" then ""
  else
    match parseChars url.data with
    | none => url
    | some u =>
      if hostIncludes u "drive.google.com" && (driveId u.path).isSome then
        String.mk (driveRewrite ((driveId u.path).getD []))
      else if hostIncludes u "dropbox.com" then
        String.mk (render (setQueryParam u "dl".data "1".data))
      else if hostIncludes u "1drv.ms" || hostIncludes u "onedrive.live.com" then
        if hasP (parseParams (u.query.getD [])) "download".data then
          String.mk (render u)
        else
          String.mk (render (setQueryParam u "download".data "1".data))
      else url

/-! ## Round-trip facts about the URL model -/

theorem takeWhile_append_all {p : Char → Bool} {xs ys : List Char}
    (h : ∀ x ∈ xs, p x = true) :
    (xs ++ ys).takeWhile p = xs ++ ys.takeWhile p := by
  induction xs with
  | nil => simp
  | cons a t ih =>
    have ha := h a (by simp)
    simp only [List.cons_append, List.takeWhile_cons, ha, if_true]
    rw [ih (fun x hx => h x (by simp [hx]))]

theorem dropWhile_append_all {p : Char → Bool} {xs ys : List Char}
    (h : ∀ x ∈ xs, p x = true) :
    (xs ++ ys).dropWhile p = ys.dropWhile p := by
  induction xs with
  | nil => simp
  | cons a t ih =>
    have ha := h a (by simp)
    simp only [List.cons_append, List.dropWhile_cons, ha, if_true]
    exact ih (fun x hx => h x (by simp [hx]))

theorem takeWhile_all {p : Char → Bool} {xs : List Char}
    (h : ∀ x ∈ xs, p x = true) : xs.takeWhile p = xs := by
  have := @takeWhile_append_all p xs [] h
  simpa using this

theorem dropWhile_all {p : Char → Bool} {xs : List Char}
    (h : ∀ x ∈ xs, p x = true) : xs.dropWhile p = [] := by
  have := @dropWhile_append_all p xs [] h
  simpa using this

theorem mem_takeWhile {p : Char → Bool} {l : List Char} :
    ∀ c ∈ l.takeWhile p, p c = true := by
  induction l with
  | nil => simp
  | cons a t ih =>
    intro c hc
    rw [List.takeWhile_cons] at hc
    by_cases ha : p a
    · simp only [ha, if_true, List.mem_cons] at hc
      rcases hc with rfl | hc
      · exact ha
      · exact ih c hc
    · simp [ha] at hc

theorem mem_of_mem_takeWhile {p : Char → Bool} {l : List Char} :
    ∀ c ∈ l.takeWhile p, c ∈ l := by
  induction l with
  | nil => simp
  | cons a t ih =>
    intro c hc
    rw [List.takeWhile_cons] at hc
    by_cases ha : p a
    · simp only [ha, if_true, List.mem_cons] at hc
      rcases hc with rfl | hc
      · exact List.mem_cons_self _ _
      · exact List.mem_cons_of_mem _ (ih c hc)
    · simp [ha] at hc

theorem dropWhile_head {p : Char → Bool} {l t : List Char} {c : Char}
    (h : l.dropWhile p = c :: t) : p c = false := by
  induction l with
  | nil => simp at h
  | cons a r ih =>
    rw [List.dropWhile_cons] at h
    by_cases ha : p a
    · simp only [ha, if_true] at h
      exact ih h
    · simp only [ha, if_false] at h
      cases h
      exact Bool.not_eq_true _ ▸ (by simpa using ha)

/-- Well-formedness of a URL record: exactly the shape of every record
`parseChars` produces, and what `parseChars ∘ render` needs to restore the
record unchanged. -/
def WF (u : URLRec) : Prop :=
  schemeOk u.scheme = true
  ∧ u.host ≠ [] ∧ (∀ c ∈ u.host, notHostDelim c = true)
  ∧ u.path ≠ [] ∧ u.path.head? = some '/' ∧ (∀ c ∈ u.path, notPathDelim c = true)
  ∧ (∀ q, u.query = some q → ∀ c ∈ q, (c != '#') = true)

theorem isSchemeChar_ne_colon {c : Char} (h : isSchemeChar c = true) : (c != ':') = true := by
  by_contra hb
  have : c = ':' := by
    simpa using hb
  subst this
  exact absurd h (by decide)

theorem schemeOk_chars {l : List Char} (h : schemeOk l = true) :
    ∀ c ∈ l, (c != ':') = true := by
  intro c hc
  cases l with
  | nil => simp at hc
  | cons a t =>
    have hall : (a :: t).all isSchemeChar = true := by
      simp only [schemeOk, Bool.and_eq_true] at h
      exact h.2
    exact isSchemeChar_ne_colon (by simpa using List.all_eq_true.mp hall c hc)

/-- Serializing a well-formed URL record and re-parsing it restores the
record exactly (`new URL(u.toString())` is the identity on canonical URLs). -/
theorem parse_render (u : URLRec) (h : WF u) : parseChars (render u) = some u := by
  obtain ⟨sch, host, path, query, frag⟩ := u
  obtain ⟨hsch, hhost0, hhostc, hpath0, hhead, hpathc, hqc⟩ := h
  cases path with
  | nil => exact absurd rfl hpath0
  | cons p0 pt =>
  have hp0 : p0 = '/' := by simpa using hhead
  subst hp0
  simp only at hhostc hpathc hqc hsch hhost0
  have hhe : host.isEmpty = false := by
    cases host with
    | nil => exact absurd rfl hhost0
    | cons a t => rfl
  cases query with
  | some q =>
    have hq : ∀ c ∈ q, (c != '#') = true := hqc q rfl
    cases frag with
    | some f =>
      have h1 : List.takeWhile notHostDelim (host ++ '/' :: (pt ++ '?' :: (q ++ '#' :: f))) = host := by
        rw [takeWhile_append_all hhostc, List.takeWhile_cons_of_neg (by decide), List.append_nil]
      have h2 : List.dropWhile notHostDelim (host ++ '/' :: (pt ++ '?' :: (q ++ '#' :: f)))
          = '/' :: (pt ++ '?' :: (q ++ '#' :: f)) := by
        rw [dropWhile_append_all hhostc, List.dropWhile_cons_of_neg (by decide)]
      have hgrp : ('/' :: pt) ++ ('?' :: (q ++ '#' :: f)) = '/' :: (pt ++ '?' :: (q ++ '#' :: f)) := by
        simp
      have h3 : List.takeWhile notPathDelim ('/' :: (pt ++ '?' :: (q ++ '#' :: f))) = '/' :: pt := by
        rw [← hgrp, takeWhile_append_all hpathc, List.takeWhile_cons_of_neg (by decide), List.append_nil]
      have h4 : List.dropWhile notPathDelim ('/' :: (pt ++ '?' :: (q ++ '#' :: f)))
          = '?' :: (q ++ '#' :: f) := by
        rw [← hgrp, dropWhile_append_all hpathc, List.dropWhile_cons_of_neg (by decide)]
      have h5 : List.takeWhile (fun c => c != '#') (q ++ '#' :: f) = q := by
        rw [takeWhile_append_all hq, List.takeWhile_cons_of_neg (by decide), List.append_nil]
      have h6 : List.dropWhile (fun c => c != '#') (q ++ '#' :: f) = '#' :: f := by
        rw [dropWhile_append_all hq, List.dropWhile_cons_of_neg (by decide)]
      simp only [render, parseChars, List.append_assoc, List.cons_append, List.nil_append]
      rw [takeWhile_append_all (schemeOk_chars hsch), dropWhile_append_all (schemeOk_chars hsch),
        List.takeWhile_cons_of_neg (by decide), List.dropWhile_cons_of_neg (by decide), List.append_nil]
      simp only [hsch, if_true, h1, h2, h3, h4, h5, h6, hhe, fragOf]
      simp
    | none =>
      have h1 : List.takeWhile notHostDelim (host ++ '/' :: (pt ++ '?' :: q)) = host := by
        rw [takeWhile_append_all hhostc, List.takeWhile_cons_of_neg (by decide), List.append_nil]
      have h2 : List.dropWhile notHostDelim (host ++ '/' :: (pt ++ '?' :: q))
          = '/' :: (pt ++ '?' :: q) := by
        rw [dropWhile_append_all hhostc, List.dropWhile_cons_of_neg (by decide)]
      have hgrp : ('/' :: pt) ++ ('?' :: q) = '/' :: (pt ++ '?' :: q) := by simp
      have h3 : List.takeWhile notPathDelim ('/' :: (pt ++ '?' :: q)) = '/' :: pt := by
        rw [← hgrp, takeWhile_append_all hpathc, List.takeWhile_cons_of_neg (by decide), List.append_nil]
      have h4 : List.dropWhile notPathDelim ('/' :: (pt ++ '?' :: q)) = '?' :: q := by
        rw [← hgrp, dropWhile_append_all hpathc, List.dropWhile_cons_of_neg (by decide)]
      have h5 : List.takeWhile (fun c => c != '#') q = q := takeWhile_all hq
      have h6 : List.dropWhile (fun c => c != '#') q = [] := dropWhile_all hq
      simp only [render, parseChars, List.append_assoc, List.cons_append, List.nil_append,
        List.append_nil]
      rw [takeWhile_append_all (schemeOk_chars hsch), dropWhile_append_all (schemeOk_chars hsch),
        List.takeWhile_cons_of_neg (by decide), List.dropWhile_cons_of_neg (by decide), List.append_nil]
      simp only [hsch, if_true, h1, h2, h3, h4, h5, h6, hhe, fragOf]
      simp
  | none =>
    cases frag with
    | some f =>
      have h1 : List.takeWhile notHostDelim (host ++ '/' :: (pt ++ '#' :: f)) = host := by
        rw [takeWhile_append_all hhostc, List.takeWhile_cons_of_neg (by decide), List.append_nil]
      have h2 : List.dropWhile notHostDelim (host ++ '/' :: (pt ++ '#' :: f))
          = '/' :: (pt ++ '#' :: f) := by
        rw [dropWhile_append_all hhostc, List.dropWhile_cons_of_neg (by decide)]
      have hgrp : ('/' :: pt) ++ ('#' :: f) = '/' :: (pt ++ '#' :: f) := by simp
      have h3 : List.takeWhile notPathDelim ('/' :: (pt ++ '#' :: f)) = '/' :: pt := by
        rw [← hgrp, takeWhile_append_all hpathc, List.takeWhile_cons_of_neg (by decide), List.append_nil]
      have h4 : List.dropWhile notPathDelim ('/' :: (pt ++ '#' :: f)) = '#' :: f := by
        rw [← hgrp, dropWhile_append_all hpathc, List.dropWhile_cons_of_neg (by decide)]
      simp only [render, parseChars, List.append_assoc, List.cons_append, List.nil_append]
      rw [takeWhile_append_all (schemeOk_chars hsch), dropWhile_append_all (schemeOk_chars hsch),
        List.takeWhile_cons_of_neg (by decide), List.dropWhile_cons_of_neg (by decide), List.append_nil]
      simp only [hsch, if_true, h1, h2, h3, h4, hhe]
      simp
    | none =>
      have h1 : List.takeWhile notHostDelim (host ++ '/' :: pt) = host := by
        rw [takeWhile_append_all hhostc, List.takeWhile_cons_of_neg (by decide), List.append_nil]
      have h2 : List.dropWhile notHostDelim (host ++ '/' :: pt) = '/' :: pt := by
        rw [dropWhile_append_all hhostc, List.dropWhile_cons_of_neg (by decide)]
      have h3 : List.takeWhile notPathDelim ('/' :: pt) = '/' :: pt := takeWhile_all hpathc
      have h4 : List.dropWhile notPathDelim ('/' :: pt) = [] := dropWhile_all hpathc
      simp only [render, parseChars, List.append_assoc, List.cons_append, List.nil_append,
        List.append_nil]
      rw [takeWhile_append_all (schemeOk_chars hsch), dropWhile_append_all (schemeOk_chars hsch),
        List.takeWhile_cons_of_neg (by decide), List.dropWhile_cons_of_neg (by decide), List.append_nil]
      simp only [hsch, if_true, h1, h2, h3, h4, hhe]
      simp

theorem takeWhile_cons_head {p : Char → Bool} {l cs : List Char} {c : Char}
    (h : l.takeWhile p = c :: cs) : ∃ t, l = c :: t := by
  cases l with
  | nil => simp at h
  | cons a t =>
    rw [List.takeWhile_cons] at h
    by_cases ha : p a
    · simp only [ha, if_true] at h
      injection h with h1 h2
      subst h1
      exact ⟨t, rfl⟩
    · simp [ha] at h

theorem notHostDelim_false {c : Char} (h : notHostDelim c = false) :
    c = '/' ∨ c = '?' ∨ c = '#' := by
  simp only [notHostDelim, Bool.not_eq_false', Bool.or_eq_true, beq_iff_eq] at h
  tauto

theorem notPathDelim_char {c : Char} (h : notPathDelim c = true) :
    c ≠ '?' ∧ c ≠ '#' := by
  simp only [notPathDelim, Bool.not_eq_true', Bool.or_eq_false_iff, beq_eq_false_iff_ne, ne_eq] at h
  exact h

theorem path_part_wf (rest2 : List Char) :
    (if (List.takeWhile notPathDelim (List.dropWhile notHostDelim rest2)).isEmpty = true
      then ['/'] else List.takeWhile notPathDelim (List.dropWhile notHostDelim rest2)) ≠ []
    ∧ (if (List.takeWhile notPathDelim (List.dropWhile notHostDelim rest2)).isEmpty = true
      then ['/'] else List.takeWhile notPathDelim (List.dropWhile notHostDelim rest2)).head? = some '/'
    ∧ ∀ c ∈ (if (List.takeWhile notPathDelim (List.dropWhile notHostDelim rest2)).isEmpty = true
      then ['/'] else List.takeWhile notPathDelim (List.dropWhile notHostDelim rest2)),
        notPathDelim c = true := by
  cases ht : List.takeWhile notPathDelim (List.dropWhile notHostDelim rest2) with
  | nil =>
    exact ⟨by simp, by simp, by simp; decide⟩
  | cons c cs =>
    simp only [List.isEmpty_cons, if_false]
    have hc1 : notPathDelim c = true := by
      apply mem_takeWhile (l := List.dropWhile notHostDelim rest2)
      rw [ht]
      exact List.mem_cons_self c cs
    obtain ⟨t, htl⟩ := takeWhile_cons_head ht
    have hc2 : notHostDelim c = false := dropWhile_head htl
    have hc : c = '/' := by
      rcases notHostDelim_false hc2 with h | h | h
      · exact h
      · exact absurd h (notPathDelim_char hc1).1
      · exact absurd h (notPathDelim_char hc1).2
    subst hc
    refine ⟨by simp, rfl, ?_⟩
    intro x hx
    apply mem_takeWhile (l := List.dropWhile notHostDelim rest2)
    rw [ht]
    exact hx

/-- Every record `parseChars` produces is well-formed. -/
theorem parse_wf {l : List Char} {u : URLRec} (h : parseChars l = some u) : WF u := by
  simp only [parseChars] at h
  split at h
  case isFalse => exact absurd h (by simp)
  case isTrue hsch =>
  split at h
  case h_2 => exact absurd h (by simp)
  case h_1 rest2 heq =>
  split at h
  case isTrue => exact absurd h (by simp)
  case isFalse hhe =>
  have hhost : List.takeWhile notHostDelim rest2 ≠ [] := by
    intro hnil
    rw [hnil] at hhe
    exact hhe rfl
  have hhostc : ∀ c ∈ List.takeWhile notHostDelim rest2, notHostDelim c = true := mem_takeWhile
  have hpath := path_part_wf rest2
  split at h
  case h_1 qf hqf =>
    injection h with h
    subst h
    exact ⟨hsch, hhost, hhostc, hpath.1, hpath.2.1, hpath.2.2, by
      intro q hq c hc
      injection hq with hq
      subst hq
      have := mem_takeWhile c hc
      simpa using this⟩
  case h_2 f hf =>
    injection h with h
    subst h
    exact ⟨hsch, hhost, hhostc, hpath.1, hpath.2.1, hpath.2.2, by
      intro q hq
      exact Option.noConfusion hq⟩
  case h_3 =>
    injection h with h
    subst h
    exact ⟨hsch, hhost, hhostc, hpath.1, hpath.2.1, hpath.2.2, by
      intro q hq
      exact Option.noConfusion hq⟩

/-- Well-formedness of a search-params list: re-serialization parses back. -/
def ParamsWF (ps : List (List Char × List Char)) : Prop :=
  ∀ p ∈ ps, '&' ∉ p.1 ∧ '=' ∉ p.1 ∧ '&' ∉ p.2

theorem splitAmp_no_amp {a : List Char} (h : '&' ∉ a) : splitAmp a = [a] := by
  induction a with
  | nil => rfl
  | cons c t ih =>
    have hc : ¬ c = '&' := fun hh => h (hh ▸ List.mem_cons_self c t)
    have ht : '&' ∉ t := fun hh => h (List.mem_cons_of_mem _ hh)
    simp only [splitAmp, hc, if_false, ih ht]

theorem splitAmp_append {a rest : List Char} (h : '&' ∉ a) :
    splitAmp (a ++ '&' :: rest) = a :: splitAmp rest := by
  induction a with
  | nil => simp [splitAmp]
  | cons c t ih =>
    have hc : ¬ c = '&' := fun hh => h (hh ▸ List.mem_cons_self c t)
    have ht : '&' ∉ t := fun hh => h (List.mem_cons_of_mem _ hh)
    simp only [List.cons_append, splitAmp, hc, if_false, List.append_eq]
    rw [ih ht]

theorem parse_chunk_eq {k v : List Char} (hk : '=' ∉ k) :
    ((k ++ '=' :: v).takeWhile (fun c => c != '='),
      chopEq ((k ++ '=' :: v).dropWhile (fun c => c != '='))) = (k, v) := by
  have hkc : ∀ c ∈ k, (c != '=') = true := by
    intro c hc
    simp only [bne_iff_ne, ne_eq]
    exact fun hh => hk (hh ▸ hc)
  rw [takeWhile_append_all hkc, dropWhile_append_all hkc,
    List.takeWhile_cons_of_neg (by decide), List.dropWhile_cons_of_neg (by decide),
    List.append_nil]
  rfl

theorem params_roundtrip {ps : List (List Char × List Char)} (h : ParamsWF ps) :
    parseParams (renderParams ps) = ps := by
  induction ps with
  | nil => rfl
  | cons p rest ih =>
    obtain ⟨hk, hke, hv⟩ := h p (List.mem_cons_self _ _)
    have hrest : ParamsWF rest := fun x hx => h x (List.mem_cons_of_mem _ hx)
    have hchunk : '&' ∉ p.1 ++ '=' :: p.2 := by
      intro hc
      rcases List.mem_append.mp hc with hc | hc
      · exact hk hc
      · rcases List.mem_cons.mp hc with hc | hc
        · exact absurd hc.symm (by decide)
        · exact hv hc
    cases rest with
    | nil =>
      simp only [renderParams, parseParams, splitAmp_no_amp hchunk]
      simp only [List.filter, List.map]
      rw [show (p.1 ++ '=' :: p.2).isEmpty = false by cases p.1 <;> rfl]
      simp only [Bool.not_false, List.map, parse_chunk_eq hke]
    | cons q rest2 =>
      simp only [renderParams, parseParams] at ih ⊢
      rw [show p.1 ++ '=' :: p.2 ++ '&' :: renderParams (q :: rest2)
          = (p.1 ++ '=' :: p.2) ++ '&' :: renderParams (q :: rest2) by simp,
        splitAmp_append hchunk]
      simp only [List.filter]
      rw [show (p.1 ++ '=' :: p.2).isEmpty = false by cases p.1 <;> rfl]
      simp only [Bool.not_false, List.map, parse_chunk_eq hke]
      rw [ih hrest]

theorem mem_of_mem_dropWhile {p : Char → Bool} {l : List Char} :
    ∀ c ∈ l.dropWhile p, c ∈ l := by
  induction l with
  | nil => simp
  | cons a t ih =>
    intro c hc
    rw [List.dropWhile_cons] at hc
    by_cases ha : p a
    · simp only [ha, if_true] at hc
      exact List.mem_cons_of_mem _ (ih c hc)
    · simp only [ha, if_false] at hc
      exact hc

theorem mem_chopEq {l : List Char} : ∀ c ∈ chopEq l, c ∈ l := by
  intro c hc
  unfold chopEq at hc
  split at hc
  · exact List.mem_cons_of_mem _ hc
  · simp at hc

theorem splitAmp_mem {q : List Char} :
    ∀ chunk ∈ splitAmp q, ∀ c ∈ chunk, c ∈ q ∧ c ≠ '&' := by
  induction q with
  | nil =>
    intro chunk hch c hc
    simp only [splitAmp, List.mem_singleton] at hch
    subst hch
    simp at hc
  | cons a t ih =>
    intro chunk hch c hc
    by_cases ha : a = '&'
    · subst ha
      simp only [splitAmp, if_true, List.mem_cons] at hch
      rcases hch with rfl | hch
      · simp at hc
      · obtain ⟨h1, h2⟩ := ih chunk hch c hc
        exact ⟨List.mem_cons_of_mem _ h1, h2⟩
    · simp only [splitAmp, ha, if_false] at hch
      cases hsp : splitAmp t with
      | nil => rw [hsp] at hch; simp only [List.mem_singleton] at hch; subst hch
               rcases List.mem_cons.mp hc with rfl | hc
               · exact ⟨List.mem_cons_self _ _, ha⟩
               · simp at hc
      | cons h r =>
        rw [hsp] at hch
        rcases List.mem_cons.mp hch with rfl | hch
        · rcases List.mem_cons.mp hc with rfl | hc
          · exact ⟨List.mem_cons_self _ _, ha⟩
          · obtain ⟨h1, h2⟩ := ih h (hsp ▸ List.mem_cons_self h r) c hc
            exact ⟨List.mem_cons_of_mem _ h1, h2⟩
        · obtain ⟨h1, h2⟩ := ih chunk (hsp ▸ List.mem_cons_of_mem _ hch) c hc
          exact ⟨List.mem_cons_of_mem _ h1, h2⟩

theorem parseParams_wf (q : List Char) : ParamsWF (parseParams q) := by
  intro p hp
  unfold parseParams at hp
  rw [List.mem_map] at hp
  obtain ⟨chunk, hch, rfl⟩ := hp
  rw [List.mem_filter] at hch
  obtain ⟨hch, -⟩ := hch
  refine ⟨?_, ?_, ?_⟩
  · intro hc
    have hmem := mem_of_mem_takeWhile _ hc
    exact (splitAmp_mem chunk hch _ hmem).2 rfl
  · intro hc
    have := mem_takeWhile _ hc
    simp at this
  · intro hc
    have hmem := mem_of_mem_dropWhile _ (mem_chopEq _ hc)
    exact (splitAmp_mem chunk hch _ hmem).2 rfl

theorem parseParams_chars {q : List Char} :
    ∀ p ∈ parseParams q, (∀ c ∈ p.1, c ∈ q) ∧ (∀ c ∈ p.2, c ∈ q) := by
  intro p hp
  unfold parseParams at hp
  rw [List.mem_map] at hp
  obtain ⟨chunk, hch, rfl⟩ := hp
  rw [List.mem_filter] at hch
  obtain ⟨hch, -⟩ := hch
  constructor
  · intro c hc
    exact (splitAmp_mem chunk hch c (mem_of_mem_takeWhile c hc)).1
  · intro c hc
    exact (splitAmp_mem chunk hch c (mem_of_mem_dropWhile c (mem_chopEq c hc))).1

theorem mem_eraseP {ps : List (List Char × List Char)} {k : List Char} :
    ∀ p ∈ eraseP ps k, p ∈ ps := by
  intro p hp
  exact (List.mem_filter.mp hp).1

theorem mem_setP {ps : List (List Char × List Char)} {k v : List Char} :
    ∀ p ∈ setP ps k v, p ∈ ps ∨ p = (k, v) := by
  induction ps with
  | nil =>
    intro p hp
    simp only [setP, List.mem_singleton] at hp
    exact Or.inr hp
  | cons q rest ih =>
    intro p hp
    unfold setP at hp
    split at hp
    · rcases List.mem_cons.mp hp with rfl | hp
      · exact Or.inr rfl
      · exact Or.inl (List.mem_cons_of_mem _ (mem_eraseP _ hp))
    · rcases List.mem_cons.mp hp with rfl | hp
      · exact Or.inl (List.mem_cons_self _ _)
      · rcases ih p hp with h | h
        · exact Or.inl (List.mem_cons_of_mem _ h)
        · exact Or.inr h

theorem setP_wf {ps : List (List Char × List Char)} {k v : List Char}
    (h : ParamsWF ps) (hk : '&' ∉ k ∧ '=' ∉ k) (hv : '&' ∉ v) :
    ParamsWF (setP ps k v) := by
  intro p hp
  rcases mem_setP p hp with hm | rfl
  · exact h p hm
  · exact ⟨hk.1, hk.2, hv⟩

theorem getP_setP (ps : List (List Char × List Char)) (k v : List Char) :
    getP (setP ps k v) k = some v := by
  induction ps with
  | nil => simp [setP, getP]
  | cons q rest ih =>
    unfold setP
    split
    · simp [getP]
    · unfold getP
      next hne => simp only [hne, if_false]
                  exact ih

theorem eraseP_idem (ps : List (List Char × List Char)) (k : List Char) :
    eraseP (eraseP ps k) k = eraseP ps k := by
  unfold eraseP
  rw [List.filter_filter]
  simp

theorem setP_idem (ps : List (List Char × List Char)) (k v : List Char) :
    setP (setP ps k v) k v = setP ps k v := by
  induction ps with
  | nil => simp [setP, eraseP]
  | cons q rest ih =>
    rw [setP]
    split
    · rw [setP]
      simp only [beq_self_eq_true, if_true, eraseP_idem]
    · next hne =>
      rw [setP]
      simp only [hne, Bool.false_eq_true, if_false]
      rw [ih]

theorem drive_fixed {cap : List Char}
    (hc : ∀ c ∈ cap, notPathDelim c = true) :
    toDirectPdfUrl (String.mk (driveRewrite cap)) = String.mk (driveRewrite cap) := by
  have hconcrete : "https://drive.google.com/uc?export=download&id=".data
      = "https".data ++ ':' :: '/' :: '/' :: ("drive.google.com".data
        ++ ("/uc".data ++ '?' :: "export=download&id=".data)) := by decide
  have hrec : driveRewrite cap = render ⟨"https".data, "drive.google.com".data, "/uc".data,
      some ("export=download&id=".data ++ cap), none⟩ := by
    simp only [driveRewrite, render, List.append_nil, hconcrete, List.append_assoc,
      List.cons_append, List.nil_append]
  have hwf : WF ⟨"https".data, "drive.google.com".data, "/uc".data,
      some ("export=download&id=".data ++ cap), none⟩ := by
    refine ⟨?_, ?_, ?_, ?_, ?_, ?_, ?_⟩
    · show schemeOk "https".data = true
      decide
    · show "drive.google.com".data ≠ []
      decide
    · show ∀ c ∈ "drive.google.com".data, notHostDelim c = true
      decide
    · show "/uc".data ≠ []
      decide
    · show ("/uc".data).head? = some '/'
      decide
    · show ∀ c ∈ "/uc".data, notPathDelim c = true
      decide
    · intro q hq c hcm
      injection hq with hq
      subst hq
      rcases List.mem_append.mp hcm with hm | hm
      · have hpre : ∀ x ∈ "export=download&id=".data, (x != '#') = true := by decide
        exact hpre c hm
      · have := (notPathDelim_char (hc c hm)).2
        simpa using this
  have hne : String.mk (driveRewrite cap) ≠ "" := by
    intro h
    have h2 : driveRewrite cap = ("" : String).data := by
      rw [← h]
    have h3 : ("" : String).data = [] := by decide
    rw [h3, show driveRewrite cap
      = "https://drive.google.com/uc?export=download&id=".data ++ cap from rfl] at h2
    have := List.append_eq_nil.mp h2
    exact absurd this.1 (by decide)
  have hparse : parseChars (String.mk (driveRewrite cap)).data = some ⟨"https".data,
      "drive.google.com".data, "/uc".data, some ("export=download&id=".data ++ cap), none⟩ := by
    show parseChars (driveRewrite cap) = some _
    rw [hrec]
    exact parse_render _ hwf
  have hd0 : driveId ("/uc".data) = none := by decide
  have hd1 : listContains ("drive.google.com".data) ("dropbox.com".data) = false := by decide
  have hd2 : listContains ("drive.google.com".data) ("1drv.ms".data) = false := by decide
  have hd3 : listContains ("drive.google.com".data) ("onedrive.live.com".data) = false := by decide
  unfold toDirectPdfUrl
  rw [if_neg hne, hparse]
  simp only [hostIncludes, hd0, hd1, hd2, hd3, Option.isSome_none, Bool.and_false,
    Bool.false_eq_true, if_false, Bool.or_self]

theorem mem_renderParams {ps : List (List Char × List Char)} :
    ∀ c ∈ renderParams ps, (∃ p ∈ ps, c ∈ p.1 ∨ c ∈ p.2) ∨ c = '&' ∨ c = '=' := by
  induction ps with
  | nil => simp [renderParams]
  | cons p rest ih =>
    intro c hc
    cases rest with
    | nil =>
      simp only [renderParams] at hc
      rcases List.mem_append.mp hc with h | h
      · exact Or.inl ⟨p, List.mem_cons_self _ _, Or.inl h⟩
      · rcases List.mem_cons.mp h with rfl | h
        · exact Or.inr (Or.inr rfl)
        · exact Or.inl ⟨p, List.mem_cons_self _ _, Or.inr h⟩
    | cons q rest2 =>
      simp only [renderParams] at hc ih
      rw [List.append_assoc] at hc
      rcases List.mem_append.mp hc with h | h
      · exact Or.inl ⟨p, List.mem_cons_self _ _, Or.inl h⟩
      · rcases List.mem_cons.mp h with rfl | h
        · exact Or.inr (Or.inr rfl)
        · rcases List.mem_append.mp h with h | h
          · exact Or.inl ⟨p, List.mem_cons_self _ _, Or.inr h⟩
          · rcases List.mem_cons.mp h with rfl | h
            · exact Or.inr (Or.inl rfl)
            · rcases ih c h with ⟨p', hp', hcp⟩ | h
              · exact Or.inl ⟨p', List.mem_cons_of_mem _ hp', hcp⟩
              · exact Or.inr h

theorem newQuery_no_hash {u : URLRec} (hwf : WF u) {k v : List Char}
    (hk : '#' ∉ k) (hv : '#' ∉ v) :
    ∀ c ∈ renderParams (setP (parseParams (u.query.getD [])) k v), (c != '#') = true := by
  intro c hc
  simp only [bne_iff_ne, ne_eq]
  intro hceq
  subst hceq
  rcases mem_renderParams _ hc with ⟨p, hp, hcp⟩ | h | h
  · rcases mem_setP p hp with hp0 | rfl
    · have hchars := parseParams_chars p hp0
      have hq : ∀ x ∈ u.query.getD [], (x != '#') = true := by
        cases hu : u.query with
        | none => simp
        | some q0 =>
          simp only [Option.getD_some]
          exact hwf.2.2.2.2.2.2 q0 hu
      rcases hcp with h | h
      · have := hq _ (hchars.1 _ h)
        simp at this
      · have := hq _ (hchars.2 _ h)
        simp at this
    · rcases hcp with h | h
      · exact hk h
      · exact hv h
  · exact absurd h (by decide)
  · exact absurd h (by decide)

theorem render_ne_nil {u : URLRec} (hwf : WF u) : render u ≠ [] := by
  have hs := hwf.1
  cases hsch : u.scheme with
  | nil => rw [hsch] at hs; exact absurd hs (by decide)
  | cons a t =>
    unfold render
    rw [hsch]
    simp

theorem mk_render_ne_empty {u : URLRec} (hwf : WF u) : String.mk (render u) ≠ "" := by
  intro h
  have h2 : render u = ("" : String).data := by rw [← h]
  have h3 : ("" : String).data = [] := by decide
  rw [h3] at h2
  exact render_ne_nil hwf h2

theorem wf_setQueryParam {u : URLRec} (hwf : WF u) {k v : List Char}
    (hk : '#' ∉ k) (hv : '#' ∉ v) : WF (setQueryParam u k v) := by
  obtain ⟨h1, h2, h3, h4, h5, h6, h7⟩ := hwf
  refine ⟨h1, h2, h3, h4, h5, h6, ?_⟩
  intro q hq c hcm
  injection hq with hq
  subst hq
  exact newQuery_no_hash ⟨h1, h2, h3, h4, h5, h6, h7⟩ hk hv c hcm

theorem setQueryParam_idem (u : URLRec) (k v : List Char)
    (hk1 : '&' ∉ k) (hk2 : '=' ∉ k) (hv1 : '&' ∉ v) :
    setQueryParam (setQueryParam u k v) k v = setQueryParam u k v := by
  unfold setQueryParam
  congr 1
  have hwfp : ParamsWF (setP (parseParams (u.query.getD [])) k v) :=
    setP_wf (parseParams_wf _) ⟨hk1, hk2⟩ hv1
  show some (renderParams (setP (parseParams (renderParams
      (setP (parseParams (u.query.getD [])) k v))) k v)) = _
  rw [params_roundtrip hwfp, setP_idem]

theorem driveIdAux_chars {fuel : ℕ} {l cap : List Char} (h : driveIdAux fuel l = some cap) :
    cap ≠ [] ∧ ∀ c ∈ cap, c ∈ l ∧ (c != '/') = true := by
  induction fuel generalizing l with
  | zero => simp [driveIdAux] at h
  | succ fuel ih =>
    cases l with
    | nil => simp [driveIdAux] at h
    | cons c rest =>
      simp only [driveIdAux] at h
      split at h
      · split at h
        · obtain ⟨h1, h2⟩ := ih h
          exact ⟨h1, fun x hx => ⟨List.mem_cons_of_mem _ (h2 x hx).1, (h2 x hx).2⟩⟩
        · next hne =>
          injection h with h
          subst h
          constructor
          · intro hnil
            rw [hnil] at hne
            exact hne rfl
          · intro x hx
            refine ⟨List.drop_subset _ _ (mem_of_mem_takeWhile x hx), mem_takeWhile x hx⟩
      · obtain ⟨h1, h2⟩ := ih h
        exact ⟨h1, fun x hx => ⟨List.mem_cons_of_mem _ (h2 x hx).1, (h2 x hx).2⟩⟩

theorem driveId_chars {p cap : List Char} (h : driveId p = some cap) :
    cap ≠ [] ∧ ∀ c ∈ cap, c ∈ p ∧ (c != '/') = true :=
  driveIdAux_chars h

theorem dropbox_fixed {u : URLRec} (hwf : WF u)
    (hnd : (hostIncludes u "drive.google.com" && (driveId u.path).isSome) = false)
    (hdb : hostIncludes u "dropbox.com" = true) :
    toDirectPdfUrl (String.mk (render (setQueryParam u "dl".data "1".data)))
      = String.mk (render (setQueryParam u "dl".data "1".data)) := by
  have hwf' : WF (setQueryParam u "dl".data "1".data) :=
    wf_setQueryParam hwf (by decide) (by decide)
  have hne := mk_render_ne_empty hwf'
  have hparse : parseChars (String.mk (render (setQueryParam u "dl".data "1".data))).data
      = some (setQueryParam u "dl".data "1".data) := parse_render _ hwf'
  have e1 : hostIncludes (setQueryParam u "dl".data "1".data) "drive.google.com"
      = hostIncludes u "drive.google.com" := rfl
  have e2 : (setQueryParam u "dl".data "1".data).path = u.path := rfl
  have e3 : hostIncludes (setQueryParam u "dl".data "1".data) "dropbox.com"
      = hostIncludes u "dropbox.com" := rfl
  unfold toDirectPdfUrl
  rw [if_neg hne, hparse]
  simp only [e1, e2, e3, hnd, Bool.false_eq_true, if_false, hdb, if_true]
  rw [setQueryParam_idem u "dl".data "1".data (by decide) (by decide) (by decide)]

theorem onedrive_fixed_has {u : URLRec} (hwf : WF u)
    (hnd : (hostIncludes u "drive.google.com" && (driveId u.path).isSome) = false)
    (hdb : hostIncludes u "dropbox.com" = false)
    (hone : (hostIncludes u "1drv.ms" || hostIncludes u "onedrive.live.com") = true)
    (hdl : hasP (parseParams (u.query.getD [])) ("download".data) = true) :
    toDirectPdfUrl (String.mk (render u)) = String.mk (render u) := by
  have hne := mk_render_ne_empty hwf
  have hparse : parseChars (String.mk (render u)).data = some u := parse_render _ hwf
  unfold toDirectPdfUrl
  rw [if_neg hne, hparse]
  simp only [hnd, Bool.false_eq_true, if_false, hdb, hone, if_true, hdl]

theorem onedrive_fixed_set {u : URLRec} (hwf : WF u)
    (hnd : (hostIncludes u "drive.google.com" && (driveId u.path).isSome) = false)
    (hdb : hostIncludes u "dropbox.com" = false)
    (hone : (hostIncludes u "1drv.ms" || hostIncludes u "onedrive.live.com") = true) :
    toDirectPdfUrl (String.mk (render (setQueryParam u "download".data "1".data)))
      = String.mk (render (setQueryParam u "download".data "1".data)) := by
  have hwf' : WF (setQueryParam u "download".data "1".data) :=
    wf_setQueryParam hwf (by decide) (by decide)
  have hne := mk_render_ne_empty hwf'
  have hparse : parseChars (String.mk (render (setQueryParam u "download".data "1".data))).data
      = some (setQueryParam u "download".data "1".data) := parse_render _ hwf'
  have e1 : hostIncludes (setQueryParam u "download".data "1".data) "drive.google.com"
      = hostIncludes u "drive.google.com" := rfl
  have e2 : (setQueryParam u "download".data "1".data).path = u.path := rfl
  have e3 : hostIncludes (setQueryParam u "download".data "1".data) "dropbox.com"
      = hostIncludes u "dropbox.com" := rfl
  have e4 : hostIncludes (setQueryParam u "download".data "1".data) "1drv.ms"
      = hostIncludes u "1drv.ms" := rfl
  have e5 : hostIncludes (setQueryParam u "download".data "1".data) "onedrive.live.com"
      = hostIncludes u "onedrive.live.com" := rfl
  have hq : (setQueryParam u "download".data "1".data).query.getD []
      = renderParams (setP (parseParams (u.query.getD [])) "download".data "1".data) := rfl
  have hdl : hasP (parseParams ((setQueryParam u "download".data "1".data).query.getD []))
      ("download".data) = true := by
    rw [hq, params_roundtrip (setP_wf (parseParams_wf _) (by decide) (by decide))]
    unfold hasP
    rw [getP_setP]
    rfl
  unfold toDirectPdfUrl
  rw [if_neg hne, hparse]
  simp only [e1, e2, e3, e4, e5, hnd, Bool.false_eq_true, if_false, hdb, hone, if_true, hdl]

theorem toDirectPdfUrl_idem (s : String) :
    toDirectPdfUrl (toDirectPdfUrl s) = toDirectPdfUrl s := by
  by_cases hs : s = ""
  · subst hs
    decide
  cases hp : parseChars s.data with
  | none =>
    have hres : toDirectPdfUrl s = s := by
      unfold toDirectPdfUrl
      rw [if_neg hs, hp]
    rw [hres]
    exact hres
  | some u =>
    have hwf := parse_wf hp
    by_cases hnd : (hostIncludes u "drive.google.com" && (driveId u.path).isSome) = true
    · cases hid : driveId u.path with
      | none =>
        rw [hid] at hnd
        simp at hnd
      | some cap =>
        have hdg : hostIncludes u "drive.google.com" = true := by
          have := hnd
          rw [Bool.and_eq_true] at this
          exact this.1
        have hres : toDirectPdfUrl s = String.mk (driveRewrite cap) := by
          unfold toDirectPdfUrl
          rw [if_neg hs, hp]
          simp only [hid, hdg, Option.isSome_some, Bool.and_self, if_true, Option.getD_some]
        rw [hres]
        apply drive_fixed
        intro c hcm
        exact hwf.2.2.2.2.2.1 c ((driveId_chars hid).2 c hcm).1
    · have hnd' : (hostIncludes u "drive.google.com" && (driveId u.path).isSome) = false :=
        Bool.not_eq_true _ ▸ (by simpa using hnd)
      by_cases hdb : hostIncludes u "dropbox.com" = true
      · have hres : toDirectPdfUrl s = String.mk (render (setQueryParam u "dl".data "1".data)) := by
          unfold toDirectPdfUrl
          rw [if_neg hs, hp]
          simp only [hnd', Bool.false_eq_true, if_false, hdb, if_true]
        rw [hres]
        exact dropbox_fixed hwf hnd' hdb
      · have hdb' : hostIncludes u "dropbox.com" = false := by
          simpa using hdb
        by_cases hone : (hostIncludes u "1drv.ms" || hostIncludes u "onedrive.live.com") = true
        · by_cases hdl : hasP (parseParams (u.query.getD [])) ("download".data) = true
          · have hres : toDirectPdfUrl s = String.mk (render u) := by
              unfold toDirectPdfUrl
              rw [if_neg hs, hp]
              simp only [hnd', Bool.false_eq_true, if_false, hdb', hone, if_true, hdl]
            rw [hres]
            exact onedrive_fixed_has hwf hnd' hdb' hone hdl
          · have hdl' : hasP (parseParams (u.query.getD [])) ("download".data) = false := by
              simpa using hdl
            have hres : toDirectPdfUrl s
                = String.mk (render (setQueryParam u "download".data "1".data)) := by
              unfold toDirectPdfUrl
              rw [if_neg hs, hp]
              simp only [hnd', Bool.false_eq_true, if_false, hdb', hone, if_true, hdl']
            rw [hres]
            exact onedrive_fixed_set hwf hnd' hdb' hone
        · have hone' : (hostIncludes u "1drv.ms" || hostIncludes u "onedrive.live.com") = false := by
            simpa using hone
          have hres : toDirectPdfUrl s = s := by
            unfold toDirectPdfUrl
            rw [if_neg hs, hp]
            simp only [hnd', Bool.false_eq_true, if_false, hdb', hone']
          rw [hres]
          exact hres

theorem parse_empty : parseChars (("" : String).data) = none := by decide

/-- Claim C5, counterexample: the claim says that every URL whose host
contains `drive.google.com` but whose path has no `/d/<id>` segment is
returned untouched.  A host can also contain `dropbox.com`
(`drive.google.com.dropbox.com`): the Drive rule then falls through and the
Dropbox rule rewrites the URL, so it is not untouched. -/
theorem drive_untouched_counterexample :
    toDirectPdfUrl "https://drive.google.com.dropbox.com/x"
      = "https://drive.google.com.dropbox.com/x?dl=1"
    ∧ toDirectPdfUrl "https://drive.google.com.dropbox.com/x"
      ≠ "https://drive.google.com.dropbox.com/x"
    ∧ (parseChars ("https://drive.google.com.dropbox.com/x".data)).map
        (fun u => hostIncludes u "drive.google.com") = some true
    ∧ (parseChars ("https://drive.google.com.dropbox.com/x".data)).map
        (fun u => (driveId u.path).isSome) = some false := by
  refine ⟨by decide, by decide, by decide, by decide⟩

/-- Claim C5, amended: `normalize` maps the Drive share link
`https://drive.google.com/file/d/ABC123/view?usp=sharing` to exactly
`https://drive.google.com/uc?export=download&id=ABC123`; and every parsable
URL whose host contains `drive.google.com` but not `dropbox.com`, `1drv.ms`
or `onedrive.live.com`, and whose path has no `/d/<id>` segment, is returned
untouched. -/
theorem drive_rewrite_and_untouched (s : String) (u : URLRec)
    (hp : parseChars s.data = some u)
    (hdg : hostIncludes u "drive.google.com" = true)
    (hid : driveId u.path = none)
    (hdb : hostIncludes u "dropbox.com" = false)
    (h1d : hostIncludes u "1drv.ms" = false)
    (hod : hostIncludes u "onedrive.live.com" = false) :
    toDirectPdfUrl "https://drive.google.com/file/d/ABC123/view?usp=sharing"
      = "https://drive.google.com/uc?export=download&id=ABC123"
    ∧ toDirectPdfUrl s = s := by
  refine ⟨by decide, ?_⟩
  have h0 : s ≠ "" := by
    intro h
    subst h
    rw [parse_empty] at hp
    cases hp
  unfold toDirectPdfUrl
  rw [if_neg h0, hp]
  simp only [hid, Option.isSome_none, Bool.and_false, Bool.false_eq_true, if_false,
    hdb, h1d, hod, Bool.or_self]

theorem drive_rewrite_and_untouched_witness :
    toDirectPdfUrl "https://drive.google.com/file/d/ABC123/view?usp=sharing"
      = "https://drive.google.com/uc?export=download&id=ABC123"
    ∧ toDirectPdfUrl "https://drive.google.com/nofile" = "https://drive.google.com/nofile" :=
  drive_rewrite_and_untouched "https://drive.google.com/nofile"
    ⟨"https".data, "drive.google.com".data, "/nofile".data, none, none⟩
    (by decide) (by decide) (by decide) (by decide) (by decide) (by decide)

/-- Claim C6, counterexample: the claim says every parsable URL whose host
contains `dropbox.com` gets `dl` forced to `1`.  For the host
`dropbox.com.drive.google.com` with a `/d/X` path the Drive rule fires
first, and the output carries no `dl` parameter at all. -/
theorem dropbox_dl_counterexample :
    toDirectPdfUrl "https://dropbox.com.drive.google.com/d/X?dl=0"
      = "https://drive.google.com/uc?export=download&id=X"
    ∧ (parseChars ("https://dropbox.com.drive.google.com/d/X?dl=0".data)).map
        (fun u => hostIncludes u "dropbox.com") = some true
    ∧ (parseChars ((toDirectPdfUrl "https://dropbox.com.drive.google.com/d/X?dl=0").data)).map
        (fun u => getP (parseParams (u.query.getD [])) ("dl".data)) = some none := by
  refine ⟨by decide, by decide, by decide⟩

/-- Claim C6, amended: for every parsable URL whose host contains
`dropbox.com` and on which the Drive rule does not fire (the host does not
also contain `drive.google.com` with a `/d/<id>` path), `normalize` forces
the `dl` query parameter to `1` — overwriting `dl=0`, adding `dl=1` when
absent — and applying `normalize` a second time yields the same string. -/
theorem dropbox_force_dl (s : String) (u : URLRec)
    (hp : parseChars s.data = some u)
    (hnd : (hostIncludes u "drive.google.com" && (driveId u.path).isSome) = false)
    (hdb : hostIncludes u "dropbox.com" = true) :
    (parseChars ((toDirectPdfUrl s).data)).map
        (fun v => getP (parseParams (v.query.getD [])) ("dl".data)) = some (some ("1".data))
    ∧ toDirectPdfUrl (toDirectPdfUrl s) = toDirectPdfUrl s := by
  have h0 : s ≠ "" := by
    intro h
    subst h
    rw [parse_empty] at hp
    cases hp
  have hwf' : WF (setQueryParam u "dl".data "1".data) :=
    wf_setQueryParam (parse_wf hp) (by decide) (by decide)
  have hres : toDirectPdfUrl s = String.mk (render (setQueryParam u "dl".data "1".data)) := by
    unfold toDirectPdfUrl
    rw [if_neg h0, hp]
    simp only [hnd, Bool.false_eq_true, if_false, hdb, if_true]
  refine ⟨?_, toDirectPdfUrl_idem s⟩
  rw [hres]
  have hparse : parseChars ((String.mk (render (setQueryParam u "dl".data "1".data))).data)
      = some (setQueryParam u "dl".data "1".data) := parse_render _ hwf'
  rw [hparse]
  show some (getP (parseParams ((setQueryParam u "dl".data "1".data).query.getD []))
    ("dl".data)) = _
  have hq : (setQueryParam u "dl".data "1".data).query.getD []
      = renderParams (setP (parseParams (u.query.getD [])) "dl".data "1".data) := rfl
  rw [hq, params_roundtrip (setP_wf (parseParams_wf _) (by decide) (by decide)), getP_setP]

theorem dropbox_force_dl_witness :
    (parseChars ((toDirectPdfUrl "https://www.dropbox.com/s/a.pdf?dl=0").data)).map
        (fun v => getP (parseParams (v.query.getD [])) ("dl".data)) = some (some ("1".data))
    ∧ toDirectPdfUrl (toDirectPdfUrl "https://www.dropbox.com/s/a.pdf?dl=0")
      = toDirectPdfUrl "https://www.dropbox.com/s/a.pdf?dl=0" :=
  dropbox_force_dl "https://www.dropbox.com/s/a.pdf?dl=0"
    ⟨"https".data, "www.dropbox.com".data, "/s/a.pdf".data, some ("dl=0".data), none⟩
    (by decide) (by decide) (by decide)

/-- Claim C7: `normalize` is total over all input strings (the model is a
total function, mirroring the `try/catch` that can never throw): every
string that fails to parse as a URL is returned unchanged, every parsable
URL matching no rewrite rule is returned verbatim, and empty input returns
the empty string. -/
theorem normalize_total_behavior (s : String) (u : URLRec)
    (hp : parseChars s.data = some u)
    (hnd : (hostIncludes u "drive.google.com" && (driveId u.path).isSome) = false)
    (hdb : hostIncludes u "dropbox.com" = false)
    (hone : (hostIncludes u "1drv.ms" || hostIncludes u "onedrive.live.com") = false) :
    toDirectPdfUrl "" = ""
    ∧ (∀ t : String, parseChars t.data = none → toDirectPdfUrl t = t)
    ∧ toDirectPdfUrl s = s := by
  refine ⟨by decide, ?_, ?_⟩
  · intro t ht
    by_cases h0 : t = ""
    · subst h0
      decide
    · unfold toDirectPdfUrl
      rw [if_neg h0, ht]
  · have h0 : s ≠ "" := by
      intro h
      subst h
      rw [parse_empty] at hp
      cases hp
    unfold toDirectPdfUrl
    rw [if_neg h0, hp]
    simp only [hnd, Bool.false_eq_true, if_false, hdb, hone]

theorem normalize_total_behavior_witness :
    toDirectPdfUrl "" = ""
    ∧ toDirectPdfUrl "not a url" = "not a url"
    ∧ toDirectPdfUrl "https://example.com/a?b=c" = "https://example.com/a?b=c" := by
  have h := normalize_total_behavior "https://example.com/a?b=c"
    ⟨"https".data, "example.com".data, "/a".data, some ("b=c".data), none⟩
    (by decide) (by decide) (by decide) (by decide)
  exact ⟨h.1, h.2.1 "not a url" (by decide), h.2.2⟩

/-- Claim C10: `normalize` is globally idempotent — for every input string,
parsable or not, whatever rewrite rule applied or none,
`normalize (normalize s) = normalize s`. -/
theorem normalize_idempotent (s : String) :
    toDirectPdfUrl (toDirectPdfUrl s) = toDirectPdfUrl s :=
  toDirectPdfUrl_idem s

/-- Witness for claim C10's theorem at a concrete input. -/
theorem normalize_idempotent_witness :
    toDirectPdfUrl (toDirectPdfUrl "https://www.dropbox.com/s/a.pdf")
      = toDirectPdfUrl "https://www.dropbox.com/s/a.pdf" :=
  normalize_idempotent "https://www.dropbox.com/s/a.pdf"

/-! ## PDF text extraction

`fetchPdfText` normalizes the extracted text with
`.replace(/\s+\n/g, "\n").replace(/\n{3,}/g, "\n\n")` and truncates with
`.slice(0, 12000)`.  The two global regex replacements are modelled
character-exactly: a JS regex scans left to right, matches greedily with
backtracking, and resumes after the replaced match. -/

/-- Index of the last `'\n'` in a list, if any. -/
def lastNl (l : List Char) : Option ℕ :=
  match l with
  | [] => none
  | c :: t =>
    match lastNl t with
    | some i => some (i + 1)
    | none => if c = '\n' then some 0 else none

/-- Length of the leftmost match of `/\s+\n/` anchored at the head of `l`:
greedy `\s+` takes the maximal whitespace run, then backtracks to the run's
last `'\n'`; the match needs at least one `\s` before that newline, i.e. the
last newline must sit at index ≥ 1 of the run. -/
def wsNlMatch (l : List Char) : Option ℕ :=
  match lastNl (l.takeWhile isWs) with
  | some i => if 1 ≤ i then some (i + 1) else none
  | none => none

/-- `.replace(/\s+\n/g, "\n")`, fuel-indexed (the fuel is the input length;
every step consumes at least one character). -/
def rep1Aux : ℕ → List Char → List Char
  | 0, l => l
  | _ + 1, [] => []
  | fuel + 1, c :: rest =>
    match wsNlMatch (c :: rest) with
    | some n => '\n' :: rep1Aux fuel (rest.drop (n - 1))
    | none => c :: rep1Aux fuel rest

/-- `.replace(/\s+\n/g, "\n")`. -/
def rep1 (l : List Char) : List Char := rep1Aux l.length l

/-- `.replace(/\n{3,}/g, "\n\n")`, fuel-indexed. -/
def rep2Aux : ℕ → List Char → List Char
  | 0, l => l
  | _ + 1, [] => []
  | fuel + 1, c :: rest =>
    if c = '\n' then
      if 3 ≤ ((c :: rest).takeWhile (fun x => x == '\n')).length then
        '\n' :: '\n' :: rep2Aux fuel
          (rest.drop (((c :: rest).takeWhile (fun x => x == '\n')).length - 1))
      else c :: rep2Aux fuel rest
    else c :: rep2Aux fuel rest

/-- `.replace(/\n{3,}/g, "\n\n")`. -/
def rep2 (l : List Char) : List Char := rep2Aux l.length l

/-- `(text).replace(/\s+\n/g, "\n").replace(/\n{3,}/g, "\n\n").slice(0, 12000)`. -/
def normalizeExtract (t : String) : String :=
  String.mk ((rep2 (rep1 t.data)).take 12000)

/-- Outcome of `fetch(url)` + `pdf-parse` for the grounding document. -/
inductive PdfFetch where
  | netError
  | resp (status : ℕ) (pdfText : Option String)

/-- `fetchPdfText` from `api/recommend.js`: empty url short-circuits without
touching the network; a fetch rejection, a non-2xx status (`!r.ok` throws
into the local catch) or a pdf-parse failure all yield the empty string; on
success the text (`data.text || ""`, here `pdfText.getD ""` folded into
`some`-cases) is whitespace-normalized and truncated to 12,000 characters. -/
def fetchPdfGot : PdfFetch → String
  | .netError => ""
  | .resp status pdfText =>
    if 200 ≤ status ∧ status ≤ 299 then
      match pdfText with
      | none => ""
      | some t => normalizeExtract t
    else ""

def fetchPdfText (fetch : String → PdfFetch) (url : String) : String :=
  if url = "" then "" else fetchPdfGot (fetch url)

/-- Modelled from the spec: "whitespace-normalized (collapse 3+ consecutive
newlines to 2, strip trailing whitespace before newlines)" followed by the
12,000-character cap.  Stripping removes every run of non-newline whitespace
that immediately precedes a newline; collapsing rewrites every run of 3 or
more newlines to exactly 2. -/
def specStripAux : ℕ → List Char → List Char
  | 0, l => l
  | _ + 1, [] => []
  | fuel + 1, c :: rest =>
    if isWs c && !(c == '\n') then
      if ((c :: rest).dropWhile (fun x => isWs x && !(x == '\n'))).head? = some '\n' then
        specStripAux fuel
          (rest.drop (((c :: rest).takeWhile (fun x => isWs x && !(x == '\n'))).length - 1))
      else c :: specStripAux fuel rest
    else c :: specStripAux fuel rest

/-- Modelled from the spec: collapse every run of 3 or more newlines to
exactly 2. -/
def specCollapseAux : ℕ → List Char → List Char
  | 0, l => l
  | _ + 1, [] => []
  | fuel + 1, c :: rest =>
    if c = '\n' then
      if 3 ≤ ((c :: rest).takeWhile (fun x => x == '\n')).length then
        '\n' :: '\n' :: specCollapseAux fuel
          (rest.drop (((c :: rest).takeWhile (fun x => x == '\n')).length - 1))
      else c :: specCollapseAux fuel rest
    else c :: specCollapseAux fuel rest

/-- Modelled from the spec: the whole ExtractedText normalization as the
spec words it. -/
def specNormalize (t : String) : String :=
  String.mk ((specCollapseAux (specStripAux t.data.length t.data).length
    (specStripAux t.data.length t.data)).take 12000)

/-- Adjacent-pair invariant: no whitespace character is immediately followed
by a newline. -/
def chainOk : List Char → Bool
  | [] => true
  | [_] => true
  | a :: b :: t => !(isWs a && b == '\n') && chainOk (b :: t)

theorem lastNl_none {xs : List Char} : lastNl xs = none ↔ '\n' ∉ xs := by
  induction xs with
  | nil => simp [lastNl]
  | cons c t ih =>
    rw [lastNl]
    cases ht : lastNl t with
    | some i =>
      simp only [ht]
      constructor
      · intro h
        cases h
      · intro h
        exact absurd (ih.mpr (fun hm => h (List.mem_cons_of_mem _ hm))) (by simp [ht])
    | none =>
      simp only [ht]
      by_cases hc : c = '\n'
      · subst hc
        simp
      · simp only [hc, if_false]
        rw [List.mem_cons]
        constructor
        · intro _ h
          rcases h with h | h
          · exact hc h.symm
          · exact ih.mp ht h
        · intro _
          trivial

theorem lastNl_lt {xs : List Char} {i : ℕ} (h : lastNl xs = some i) : i < xs.length := by
  induction xs generalizing i with
  | nil => simp [lastNl] at h
  | cons c t ih =>
    rw [lastNl] at h
    cases ht : lastNl t with
    | some j =>
      rw [ht] at h
      injection h with h
      subst h
      have := ih ht
      simp only [List.length_cons]
      omega
    | none =>
      rw [ht] at h
      by_cases hc : c = '\n'
      · simp only [hc, if_true] at h
        injection h with h
        subst h
        simp
      · simp [hc] at h

theorem lastNl_drop {xs : List Char} {i : ℕ} (h : lastNl xs = some i) :
    '\n' ∉ xs.drop (i + 1) := by
  induction xs generalizing i with
  | nil => simp [lastNl] at h
  | cons c t ih =>
    rw [lastNl] at h
    cases ht : lastNl t with
    | some j =>
      rw [ht] at h
      injection h with h
      subst h
      rw [List.drop_succ_cons]
      exact ih ht
    | none =>
      rw [ht] at h
      by_cases hc : c = '\n'
      · simp only [hc, if_true] at h
        injection h with h
        subst h
        rw [List.drop_succ_cons, List.drop_zero]
        exact lastNl_none.mp ht
      · simp [hc] at h

theorem chainOk_tail {a : Char} {l : List Char} (h : chainOk (a :: l) = true) :
    chainOk l = true := by
  cases l with
  | nil => rfl
  | cons b t =>
    rw [chainOk, Bool.and_eq_true] at h
    exact h.2

theorem chainOk_cons {a : Char} {X : List Char}
    (hhead : ∀ b, X.head? = some b → (isWs a && b == '\n') = false)
    (hX : chainOk X = true) : chainOk (a :: X) = true := by
  cases X with
  | nil => rfl
  | cons b t =>
    rw [chainOk, Bool.and_eq_true]
    exact ⟨by rw [hhead b rfl]; rfl, hX⟩

theorem chainOk_take {l : List Char} (h : chainOk l = true) (n : ℕ) :
    chainOk (l.take n) = true := by
  induction l generalizing n with
  | nil => simp [chainOk]
  | cons a t ih =>
    cases n with
    | zero => rfl
    | succ m =>
      rw [List.take_succ_cons]
      apply chainOk_cons
      · intro b hb
        cases t with
        | nil => simp at hb
        | cons b' t' =>
          cases m with
          | zero => simp at hb
          | succ m' =>
            rw [List.take_succ_cons] at hb
            simp only [List.head?_cons] at hb
            injection hb with hb
            subst hb
            rw [chainOk, Bool.and_eq_true] at h
            have h1 := h.1
            rw [Bool.not_eq_true'] at h1
            exact h1
      · exact ih (chainOk_tail h) m

theorem noNl_head {l : List Char} (h : '\n' ∉ l.takeWhile isWs) :
    l.head? ≠ some '\n' := by
  cases l with
  | nil => simp
  | cons c t =>
    by_cases hc : c = '\n'
    · subst hc
      rw [List.takeWhile_cons_of_pos (by decide)] at h
      exact absurd (List.mem_cons_self _ _) h
    · simp only [List.head?_cons, ne_eq, Option.some.injEq]
      exact hc

theorem noNl_wsNlMatch {l : List Char} (h : '\n' ∉ l.takeWhile isWs) :
    wsNlMatch l = none := by
  unfold wsNlMatch
  rw [lastNl_none.mpr h]

theorem rep1Aux_head {fuel : ℕ} {l : List Char} (h : wsNlMatch l = none) :
    (rep1Aux fuel l).head? = l.head? := by
  cases fuel with
  | zero => rfl
  | succ fuel =>
    cases l with
    | nil => rfl
    | cons c rest =>
      rw [rep1Aux, h]
      rfl

theorem wsNlMatch_none_tail {c : Char} {rest : List Char}
    (h : wsNlMatch (c :: rest) = none) (hws : isWs c = true) :
    '\n' ∉ rest.takeWhile isWs := by
  rw [wsNlMatch, List.takeWhile_cons_of_pos hws] at h
  cases ht : lastNl (rest.takeWhile isWs) with
  | some j =>
    rw [lastNl, ht] at h
    simp at h
  | none => exact lastNl_none.mp ht

theorem drop_decomp {p : Char → Bool} {l : List Char} {n : ℕ}
    (hn : n ≤ (l.takeWhile p).length) :
    l.drop n = (l.takeWhile p).drop n ++ l.dropWhile p := by
  conv_lhs => rw [← List.takeWhile_append_dropWhile (p := p) (l := l)]
  rw [List.drop_append_eq_append_drop, Nat.sub_eq_zero_of_le hn, List.drop_zero]

theorem wsNlMatch_some {l : List Char} {n : ℕ} (h : wsNlMatch l = some n) :
    2 ≤ n ∧ '\n' ∉ (l.drop n).takeWhile isWs := by
  rw [wsNlMatch] at h
  cases ht : lastNl (l.takeWhile isWs) with
  | none => rw [ht] at h; cases h
  | some i =>
    rw [ht] at h
    by_cases hi : 1 ≤ i
    · simp only [hi, if_true] at h
      injection h with h
      subst h
      refine ⟨by omega, ?_⟩
      have hlt : i < (l.takeWhile isWs).length := lastNl_lt ht
      rw [drop_decomp (p := isWs) (by omega)]
      rw [takeWhile_append_all (fun x hx => mem_takeWhile x (List.drop_subset _ _ hx))]
      intro hmem
      rcases List.mem_append.mp hmem with hm | hm
      · exact lastNl_drop ht hm
      · cases hrest : l.dropWhile isWs with
        | nil => rw [hrest] at hm; simp at hm
        | cons r t =>
          rw [hrest] at hm
          rw [List.takeWhile_cons_of_neg (by rw [dropWhile_head hrest]; simp)] at hm
          simp at hm
    · simp [hi] at h

theorem noNl_head_of_tail {rest : List Char} (h : '\n' ∉ rest.takeWhile isWs) :
    ∀ b, rest.head? = some b → (b == '\n') = false := by
  intro b hb
  have := noNl_head h
  rw [hb] at this
  simp only [ne_eq, Option.some.injEq] at this
  simpa using this

theorem rep1Aux_chainOk : ∀ fuel (l : List Char), l.length ≤ fuel →
    chainOk (rep1Aux fuel l) = true := by
  intro fuel
  induction fuel with
  | zero =>
    intro l hl
    have : l = [] := List.length_eq_zero.mp (Nat.le_zero.mp hl)
    subst this
    rfl
  | succ fuel ih =>
    intro l hl
    cases l with
    | nil => rfl
    | cons c rest =>
      rw [List.length_cons] at hl
      have hrest : rest.length ≤ fuel := by omega
      cases hm : wsNlMatch (c :: rest) with
      | some n =>
        obtain ⟨hn2, hnoNl⟩ := wsNlMatch_some hm
        have hdropeq : rest.drop (n - 1) = (c :: rest).drop n := by
          conv_rhs => rw [show n = (n - 1) + 1 from by omega]
          rw [List.drop_succ_cons]
        rw [rep1Aux, hm]
        have hlen' : (rest.drop (n - 1)).length ≤ fuel := by
          rw [List.length_drop]
          omega
        have hnoNl' : '\n' ∉ (rest.drop (n - 1)).takeWhile isWs := by
          rw [hdropeq]
          exact hnoNl
        apply chainOk_cons
        · intro b hb
          rw [rep1Aux_head (noNl_wsNlMatch hnoNl')] at hb
          rw [noNl_head_of_tail hnoNl' b hb]
          simp
        · exact ih _ hlen'
      | none =>
        rw [rep1Aux, hm]
        apply chainOk_cons
        · intro b hb
          by_cases hws : isWs c
          · have hnr : '\n' ∉ rest.takeWhile isWs := wsNlMatch_none_tail hm hws
            rw [rep1Aux_head (noNl_wsNlMatch hnr)] at hb
            rw [noNl_head_of_tail hnr b hb]
            simp
          · rw [Bool.not_eq_true] at hws
            rw [hws]
            rfl
        · exact ih _ hrest

theorem rep2Aux_nil (fuel : ℕ) : rep2Aux fuel [] = [] := by
  cases fuel <;> rfl

theorem rep2Aux_id : ∀ fuel (l : List Char), chainOk l = true → rep2Aux fuel l = l := by
  intro fuel
  induction fuel with
  | zero => intro l _; rfl
  | succ fuel ih =>
    intro l hl
    cases l with
    | nil => rfl
    | cons c rest =>
      by_cases hc : c = '\n'
      · subst hc
        cases rest with
        | nil =>
          rw [rep2Aux]
          simp only [List.drop_nil, rep2Aux_nil]
          decide
        | cons b t =>
          have hb : (b == '\n') = false := by
            rw [chainOk, Bool.and_eq_true] at hl
            have h1 := hl.1
            rw [Bool.not_eq_true'] at h1
            rw [show isWs '\n' = true from by decide, Bool.true_and] at h1
            exact h1
          have hrw : List.takeWhile (fun x => x == '\n') ('\n' :: b :: t) = ['\n'] := by
            rw [List.takeWhile_cons_of_pos (by decide),
              List.takeWhile_cons_of_neg (by simp [hb])]
          rw [rep2Aux, if_pos rfl, hrw]
          rw [if_neg (by decide)]
          rw [ih _ (chainOk_tail hl)]
      · rw [rep2Aux, if_neg hc, ih _ (chainOk_tail hl)]

/-- Claim C8, counterexample: the claim says runs of 3+ newlines collapse
to exactly 2.  The first replacement `/\s+\n/ → "\n"` already swallows the
whole newline run (greedy `\s+` matches the leading newlines), so
`"a\n\n\nb"` extracts to `"a\nb"`, while the spec's wording
(strip trailing whitespace, collapse 3+ to 2) would give `"a\n\nb"`. -/
theorem extract_normalization_counterexample :
    normalizeExtract "a\n\n\nb" = "a\nb"
    ∧ specNormalize "a\n\n\nb" = "a\n\nb"
    ∧ normalizeExtract "a\n\n\nb" ≠ specNormalize "a\n\n\nb"
    ∧ fetchPdfText (fun _ => .resp 200 (some "a\n\n\nb")) "http://x" = "a\nb" := by
  refine ⟨by decide, by decide, by decide, by decide⟩

/-- Claim C8, amended: every successfully extracted text has length at most
12,000 characters, and is whitespace-normalized so that no whitespace
character immediately precedes a newline — in particular every run of 2 or
more newlines (hence also 3 or more) is collapsed to a single newline, and
the second replacement `/\n{3,}/ → "\n\n"` never fires. -/
theorem extract_text_normalized (fetch : String → PdfFetch) (url : String) :
    (fetchPdfText fetch url).length ≤ 12000
    ∧ chainOk ((fetchPdfText fetch url).data) = true := by
  have hempty : ("" : String).length ≤ 12000 ∧ chainOk (("" : String).data) = true :=
    ⟨by decide, by decide⟩
  have hnorm : ∀ t : String,
      (normalizeExtract t).length ≤ 12000 ∧ chainOk ((normalizeExtract t).data) = true := by
    intro t
    constructor
    · show ((rep2 (rep1 t.data)).take 12000).length ≤ 12000
      rw [List.length_take]
      omega
    · show chainOk ((rep2 (rep1 t.data)).take 12000) = true
      have h1 : chainOk (rep1 t.data) = true := rep1Aux_chainOk _ _ le_rfl
      rw [show rep2 (rep1 t.data) = rep1 t.data from rep2Aux_id _ _ h1]
      exact chainOk_take h1 _
  unfold fetchPdfText fetchPdfGot
  split
  · exact hempty
  split
  · exact hempty
  split
  · split
    · exact hempty
    · exact hnorm _
  · exact hempty

/-- Witness for claim C8's amended theorem at a concrete fetch and url. -/
theorem extract_text_normalized_witness :
    (fetchPdfText (fun _ => PdfFetch.resp 200 (some "x \n\n\n\ny")) "http://h").length ≤ 12000
    ∧ chainOk ((fetchPdfText (fun _ => PdfFetch.resp 200 (some "x \n\n\n\ny")) "http://h").data)
      = true :=
  extract_text_normalized (fun _ => PdfFetch.resp 200 (some "x \n\n\n\ny")) "http://h"

/-! ## The request handler -/

/-- Outcome of the OpenAI `fetch` call, as a function of the user prompt:
either the promise rejected (`threw`, caught by the top-level catch), or an
HTTP response arrived with a status, the result of `r.json()` (`none` when
the body was not JSON) and the text fallback used for the 502 snippet. -/
inductive Upstream where
  | threw (msg : String)
  | ok (status : ℕ) (json : Option JVal) (fallback : String)

/-- The ambient effects of one request: environment, PDF fetch, the
generation call, and `JSON.parse` on the model content string. -/
structure World where
  apiKey : Option String
  pdfFetch : String → PdfFetch
  upstream : String → Upstream
  jparse : String → Option JVal

/-- `s.slice(0, n)`. -/
def strTake (s : String) (n : ℕ) : String := String.mk (s.data.take n)

/-- `{ error: e }`. -/
def errObj (e : String) : JVal := .obj [("error", .str e)]

/-- `data?.error?.message || "OpenAI API error"`. -/
def upstreamErrVal (data : JVal) : JVal :=
  jOr ((jfield data "error").bind (fun e => jfield e "message")) (.str "OpenAI API error")

/-- `data?.choices?.[0]?.message?.content`. -/
def getContent (data : JVal) : Option JVal :=
  (((jfield data "choices").bind (fun c => jidx c 0)).bind
    (fun m => jfield m "message")).bind (fun m => jfield m "content")

/-- `if (typeof content === "string") { try { content = JSON.parse(content) } catch { ...500... } }`:
`error s` is the 500 path carrying the offending string. -/
def resolveContent (w : World) (oc : Option JVal) : Except String (Option JVal) :=
  match oc with
  | some (.str s) =>
    match w.jparse s with
    | some p => .ok (some p)
    | none => .error s
  | other => .ok other

/-- The user prompt (backtick template literal followed by `.trim()`). -/
def userPrompt (scenario kb : String) : String :=
  jsTrim ("\nScenario:\n" ++ scenario ++ "\n\nPDF_Excerpt (may be empty):\n"
    ++ (if kb = "" then "(none)" else kb) ++ "\n")

/-- The 200 response body: clamped levels, pass-through rationales and
summary (`content?.levels || {}`, `content?.rationales || {}`,
`content?.summary || ""`). -/
def finalizeBody (content : Option JVal) : JVal :=
  .obj [("levels", .obj ((finalizeLevels
          (jOr (content.bind (fun c => jfield c "levels")) (.obj []))).map
        (fun p => (p.1, JVal.num (jnInt p.2))))),
    ("rationales", jOr (content.bind (fun c => jfield c "rationales")) (.obj [])),
    ("summary", jOr (content.bind (fun c => jfield c "summary")) (.str ""))]

/-- The handler of `api/recommend.js`.  The request body has already been
read by `readJson` and coerced (`(body?.scenario || "").toString()`,
`body?.pdfUrl ? body.pdfUrl.toString() : ""`), so the handler is modelled on
the resulting `method`, `scenario` and raw `pdfUrl` strings.  `r.ok` is
`200 ≤ status ≤ 299`, per the fetch specification. -/
def handler (w : World) (method scenario pdfUrlRaw : String) : ℕ × JVal :=
  if method ≠ "POST" then (405, errObj "Use POST")
  else if w.apiKey.getD "" = "" then (500, errObj "Missing OPENAI_API_KEY in Vercel env")
  else
    let pdfUrl := if pdfUrlRaw = "" then "" else toDirectPdfUrl pdfUrlRaw
    if scenario = "" ∨ (jsTrim scenario).length < 3 then
      (400, errObj "Missing or too-short 'scenario'")
    else
      let kb := fetchPdfText w.pdfFetch pdfUrl
      match w.upstream (userPrompt scenario kb) with
      | .threw msg => (500, errObj (if msg = "" then "Server error" else msg))
      | .ok status json fallback =>
        match json with
        | none => (502, .obj [("error", .str "Upstream returned non-JSON"),
            ("snippet", .str (strTake fallback 200))])
        | some data =>
          if ¬ (200 ≤ status ∧ status ≤ 299) then
            (status, .obj [("error", upstreamErrVal data)])
          else
            match resolveContent w (getContent data) with
            | .error s => (500, .obj [("error", .str "Model did not return valid JSON"),
                ("snippet", .str (strTake s 200))])
            | .ok content => (200, finalizeBody content)

theorem finalizeBody_levels (content : Option JVal) :
    ∃ lv : List (String × JVal),
      jfield (finalizeBody content) "levels" = some (.obj lv)
      ∧ lv.map Prod.fst = traits
      ∧ ∀ p ∈ lv, ∃ z : ℤ, p.2 = JVal.num (jnInt z) ∧ 0 ≤ z ∧ z ≤ 10 := by
  refine ⟨(finalizeLevels (jOr (content.bind (fun c => jfield c "levels")) (.obj []))).map
    (fun p => (p.1, JVal.num (jnInt p.2))), ?_, ?_, ?_⟩
  · rfl
  · rw [List.map_map]
    have := finalizeLevels_keys (jOr (content.bind (fun c => jfield c "levels")) (.obj []))
    rw [← this]
    rfl
  · intro p hp
    rw [List.mem_map] at hp
    obtain ⟨q, hq, rfl⟩ := hp
    exact ⟨q.2, rfl, (finalizeLevels_values _ q hq).1, (finalizeLevels_values _ q hq).2⟩

/-- Claim C1: for every request that passes scenario validation and reaches
response finalization (equivalently, every request the handler answers with
status 200), and for every possible model output — levels objects with
missing keys, string values, fractions, negative or out-of-range numbers,
or no levels field at all — the returned `levels` mapping contains exactly
the 11 fixed trait keys in order and every value is an integer in [0,10]. -/
theorem handler_levels_invariant (w : World) (method scenario pdfUrlRaw : String)
    (b : JVal) (h : handler w method scenario pdfUrlRaw = (200, b)) :
    ∃ lv : List (String × JVal),
      jfield b "levels" = some (.obj lv)
      ∧ lv.map Prod.fst = traits
      ∧ ∀ p ∈ lv, ∃ z : ℤ, p.2 = JVal.num (jnInt z) ∧ 0 ≤ z ∧ z ≤ 10 := by
  simp only [handler] at h
  split at h
  · have := congrArg Prod.fst h
    simp at this
  split at h
  · have := congrArg Prod.fst h
    simp at this
  split at h
  · have := congrArg Prod.fst h
    simp at this
  split at h
  · have := congrArg Prod.fst h
    simp at this
  split at h
  · have := congrArg Prod.fst h
    simp at this
  split at h
  case isTrue hst =>
    have := congrArg Prod.fst h
    simp only at this
    omega
  split at h
  · have := congrArg Prod.fst h
    simp at this
  · have hb := congrArg Prod.snd h
    simp only at hb
    subst hb
    exact finalizeBody_levels _

/-- A concrete world whose generation call returns a well-formed completion
whose levels object mixes a number and a non-numeric string. -/
def demoWorld : World :=
  ⟨some "k", fun _ => PdfFetch.netError,
    fun _ => Upstream.ok 200 (some (.obj [("choices", .arr [.obj [("message", .obj
      [("content", .obj [("levels", .obj [("focus", .num (jnInt 7)),
        ("ruthlessness", .str "up")])])])]])])) "",
    fun _ => none⟩

/-- Witness for claim C1's theorem at a concrete world and request. -/
theorem handler_levels_invariant_witness :
    ∃ lv : List (String × JVal),
      jfield ((handler demoWorld "POST" "test" "").2) "levels" = some (.obj lv)
      ∧ lv.map Prod.fst = traits
      ∧ ∀ p ∈ lv, ∃ z : ℤ, p.2 = JVal.num (jnInt z) ∧ 0 ≤ z ∧ z ≤ 10 :=
  handler_levels_invariant demoWorld "POST" "test" "" _ rfl

/-- A PDF fetch outcome the extractor treats as a soft failure: either the
fetch rejected (unreachable host) or the response was non-2xx. -/
def pdfUnavailable : PdfFetch → Prop
  | .netError => True
  | .resp status _ => ¬ (200 ≤ status ∧ status ≤ 299)

theorem fetchPdfText_unavailable {f : String → PdfFetch} {url : String}
    (h : pdfUnavailable (f url)) : fetchPdfText f url = "" := by
  unfold fetchPdfText
  by_cases hu : url = ""
  · rw [if_pos hu]
  rw [if_neg hu]
  cases hf : f url with
  | netError => rfl
  | resp status t =>
    rw [hf] at h
    simp only [pdfUnavailable] at h
    simp only [fetchPdfGot]
    rw [if_neg h]

/-- Claim C4: document fetch failure never fails the request.  For every
request with a valid scenario whose pdfUrl fetch is unreachable or answers
non-2xx, the grounding text is empty, and — when the generation call
succeeds — the endpoint still returns 200 with a valid levels object;
`fetchPdfText` on an empty url returns `""` for every world, without
consulting the fetch oracle; no fetch failure surfaces to the caller. -/
theorem pdf_failure_is_soft (w : World) (scenario pdfUrlRaw : String)
    (status : ℕ) (data : JVal) (fallback : String) (content : Option JVal)
    (hk : w.apiKey.getD "" ≠ "")
    (hs : ¬ (scenario = "" ∨ (jsTrim scenario).length < 3))
    (hfail : pdfUnavailable (w.pdfFetch (if pdfUrlRaw = "" then "" else toDirectPdfUrl pdfUrlRaw)))
    (hup : w.upstream (userPrompt scenario "") = .ok status (some data) fallback)
    (hst : 200 ≤ status ∧ status ≤ 299)
    (hc : resolveContent w (getContent data) = .ok content) :
    fetchPdfText w.pdfFetch (if pdfUrlRaw = "" then "" else toDirectPdfUrl pdfUrlRaw) = ""
    ∧ (∀ w' : World, fetchPdfText w'.pdfFetch "" = "")
    ∧ handler w "POST" scenario pdfUrlRaw = (200, finalizeBody content)
    ∧ ∃ lv : List (String × JVal),
        jfield (finalizeBody content) "levels" = some (.obj lv)
        ∧ lv.map Prod.fst = traits
        ∧ ∀ p ∈ lv, ∃ z : ℤ, p.2 = JVal.num (jnInt z) ∧ 0 ≤ z ∧ z ≤ 10 := by
  have hkb := fetchPdfText_unavailable hfail
  refine ⟨hkb, fun w' => rfl, ?_, finalizeBody_levels _⟩
  simp only [handler]
  rw [if_neg (by simp), if_neg hk, if_neg hs, hkb, hup]
  simp only []
  rw [if_neg (not_not_intro hst), hc]

/-- Witness for claim C4's theorem at a concrete world and request. -/
theorem pdf_failure_is_soft_witness :
    fetchPdfText (fun _ => PdfFetch.netError)
        (if "https://nohost.example/doc.pdf" = "" then ""
          else toDirectPdfUrl "https://nohost.example/doc.pdf") = ""
    ∧ (∀ w' : World, fetchPdfText w'.pdfFetch "" = "")
    ∧ handler ⟨some "k", fun _ => PdfFetch.netError,
        fun _ => Upstream.ok 200 (some (.obj [])) "", fun _ => none⟩
        "POST" "test" "https://nohost.example/doc.pdf" = (200, finalizeBody none)
    ∧ ∃ lv : List (String × JVal),
        jfield (finalizeBody none) "levels" = some (.obj lv)
        ∧ lv.map Prod.fst = traits
        ∧ ∀ p ∈ lv, ∃ z : ℤ, p.2 = JVal.num (jnInt z) ∧ 0 ≤ z ∧ z ≤ 10 :=
  pdf_failure_is_soft ⟨some "k", fun _ => PdfFetch.netError,
      fun _ => Upstream.ok 200 (some (.obj [])) "", fun _ => none⟩
    "test" "https://nohost.example/doc.pdf" 200 (.obj []) "" none
    (by decide) (by decide) trivial rfl (by omega) rfl

/-- Claim C9: when the generation call succeeds but the model's `content`
field is a string that does not parse as JSON, the endpoint returns status
500 with body `{error: "Model did not return valid JSON", snippet}` where
the snippet is the offending content truncated to at most 200 characters;
no exception propagates (the model's handler is a total function). -/
theorem model_output_invalid_500 (w : World) (scenario pdfUrlRaw s : String)
    (status : ℕ) (data : JVal) (fallback : String)
    (hk : w.apiKey.getD "" ≠ "")
    (hs : ¬ (scenario = "" ∨ (jsTrim scenario).length < 3))
    (hup : w.upstream (userPrompt scenario
        (fetchPdfText w.pdfFetch (if pdfUrlRaw = "" then "" else toDirectPdfUrl pdfUrlRaw)))
      = .ok status (some data) fallback)
    (hst : 200 ≤ status ∧ status ≤ 299)
    (hc : getContent data = some (.str s))
    (hj : w.jparse s = none) :
    handler w "POST" scenario pdfUrlRaw
      = (500, .obj [("error", .str "Model did not return valid JSON"),
          ("snippet", .str (strTake s 200))])
    ∧ (strTake s 200).length ≤ 200 := by
  constructor
  · simp only [handler]
    rw [if_neg (by simp), if_neg hk, if_neg hs, hup]
    simp only []
    rw [if_neg (not_not_intro hst)]
    rw [show resolveContent w (getContent data) = .error s by
      rw [hc]
      simp only [resolveContent, hj]]
  · show ((s.data.take 200).length ≤ 200)
    rw [List.length_take]
    omega

/-- A concrete world whose completion content is a string that is not JSON. -/
def invalidContentData : JVal :=
  .obj [("choices", .arr [.obj [("message", .obj [("content", .str "not json")])]])]

/-- A concrete world delivering `invalidContentData` from the generation
call, with a `JSON.parse` oracle that fails on every string. -/
def invalidContentWorld : World :=
  ⟨some "k", fun _ => PdfFetch.netError,
    fun _ => Upstream.ok 200 (some invalidContentData) "", fun _ => none⟩

/-- Witness for claim C9's theorem at a concrete world and request. -/
theorem model_output_invalid_500_witness :
    handler invalidContentWorld "POST" "test" ""
      = (500, .obj [("error", .str "Model did not return valid JSON"),
          ("snippet", .str (strTake "not json" 200))])
    ∧ (strTake "not json" 200).length ≤ 200 :=
  model_output_invalid_500 invalidContentWorld "test" "" "not json" 200 invalidContentData ""
    (by decide) (by decide) rfl (by omega) rfl rfl

end Recommend
